import Mathlib

/-!
# Verification of the `base_xx` byte/text codecs

Shallow embedding of the codec core of the `base_xx` crate:

* `Base36`  (`src/algorithm/base36.rs`)  — big-integer base-36 codec,
* `Base58`  (`src/algorithm/base58.rs`)  — big-integer base-58 codec,
* `Base64`  (`src/algorithm/base64.rs`)  — big-integer base-64 codec (custom, non RFC 4648),
* `Hex`     (`src/algorithm/hex.rs`)     — nibble-aligned base-16 codec,
* `Uuencode`(`src/algorithm/uuencode.rs`)— line-oriented 6-bit packing codec.

Modelling conventions:

* Rust `u8` values are `Nat`s; wrapping `u8` arithmetic carries an explicit
  `&&& 255` / `% 256` exactly where the Rust operation wraps.
* A Rust `&str`/`String` is a `List Char` where the code iterates over
  `chars()`, and its UTF-8 byte sequence (`List Nat`, via `utf8EncodeChar`)
  where the code calls `as_bytes()` / `bytes()` / `len()`.  The uuencode codec
  only ever looks at the UTF-8 bytes of its input and produces only ASCII
  (< 0x80) output bytes, so it is modelled directly on byte lists.
* Rust loops that are not structurally recursive are written with an explicit
  fuel argument that provably dominates the loop's variant, keeping every
  definition executable by `decide`/`rfl`.
* `SerialiseError::new(msg)` values are modelled by the inductive `SErr`, one
  constructor per distinct message produced by the code.  `Hex::from_hex`
  returns a bare `Vec<u8>` in Rust and *panics* on bad input; the panic is
  modelled by the error side of `Except HexPanic`.
-/

deriving instance DecidableEq for Except

/-- Error values built with `SerialiseError::new(...)`, one constructor per
distinct message string in the source. -/
inductive SErr where
  | invalidBase36Char : SErr                -- "Invalid base36 character"
  | invalidBase58Char : SErr                -- "invalid base58 character"
  | invalidBase64Char : SErr                -- "invalid base64 character"
  | base36DoesNotFit (size : Nat) : SErr    -- "base36 value does not fit in ... bytes"
  | base58DoesNotFit (size : Nat) : SErr    -- "base58 value does not fit in ... bytes"
  | base64DoesNotFit (size : Nat) : SErr    -- "base64 value does not fit in ... bytes"
  | uuMissingLength : SErr                  -- "uuencode line must have a length character"
  | uuInvalidLength : SErr                  -- "invalid uuencode length character"
  | uuTruncated : SErr                      -- "truncated uuencode data"
  | uuInvalidChar : SErr                    -- "invalid uuencode character"
deriving DecidableEq, Repr

/-- The two panic messages of `Hex::from_hex` (the Rust function returns a bare
`Vec<u8>` and aborts on bad input; the abort is modelled as this error). -/
inductive HexPanic where
  | oddLength : HexPanic       -- assert!: "hex string must have an even length"
  | invalidCharacter : HexPanic -- panic!: "invalid hex character"
deriving DecidableEq, Repr

/-- Rust `char::is_whitespace`: the Unicode `White_Space` code points. -/
def isRustWhitespace (c : Char) : Bool :=
  let n := c.toNat
  (9 ≤ n && n ≤ 13) || n == 32 || n == 133 || n == 160 || n == 5760 ||
  (8192 ≤ n && n ≤ 8202) || n == 8232 || n == 8233 || n == 8239 ||
  n == 8287 || n == 12288

/-- Rust `str::trim`: remove leading and trailing whitespace characters. -/
def rustTrim (s : List Char) : List Char :=
  ((s.dropWhile isRustWhitespace).reverse.dropWhile isRustWhitespace).reverse

/-- Concatenation of the images of `f` (Rust iterator `flat_map` / repeated
`extend`); recursion kept structural so it evaluates by `rfl`. -/
def concatMap (f : α → List β) : List α → List β
  | [] => []
  | x :: xs => f x ++ concatMap f xs

/-- UTF-8 encoding of one `char`, as the Rust standard library produces it. -/
def utf8EncodeChar (c : Char) : List Nat :=
  let n := c.toNat
  if n < 0x80 then [n]
  else if n < 0x800 then [0xc0 ||| (n >>> 6), 0x80 ||| (n &&& 0x3f)]
  else if n < 0x10000 then
    [0xe0 ||| (n >>> 12), 0x80 ||| ((n >>> 6) &&& 0x3f), 0x80 ||| (n &&& 0x3f)]
  else
    [0xf0 ||| (n >>> 18), 0x80 ||| ((n >>> 12) &&& 0x3f),
     0x80 ||| ((n >>> 6) &&& 0x3f), 0x80 ||| (n &&& 0x3f)]

/-- The UTF-8 byte sequence of a string (`str::as_bytes` / `str::bytes`). -/
def utf8Bytes (s : List Char) : List Nat :=
  concatMap utf8EncodeChar s

/-- `slice::iter().position(|x| *x == v)` over an alphabet table. -/
def alphaPos (v : Nat) : List Nat → Option Nat
  | [] => none
  | a :: as => if a = v then some 0 else (alphaPos v as).map (· + 1)

/-- Big-endian value of a byte buffer (used only as a fuel bound for the
encoding loops, mirroring "the loop divides this value by R each pass"). -/
def natOfBytes (l : List Nat) : Nat :=
  l.foldl (fun a b => a * 256 + b) 0

section RadixDecode

/-!
Shared decode arithmetic of `base36_to_bytes`, `base58_to_bytes` and
`base64_to_bytes` (the three Rust loop bodies are textually identical up to
the radix constant):

```
let mut carry = digit;
for b in acc.iter_mut().rev() {
    let v = u32::from(*b) * R + carry;
    *b = (v & 0xff) as u8;
    carry = v >> 8;
}
while carry > 0 { acc.insert(0, (carry & 0xff) as u8); carry >>= 8; }
```
-/

/-- The `for b in acc.iter_mut().rev()` pass: multiply every byte by `R`,
propagating `carry` from the least-significant (rightmost) byte outward.
Returns the updated buffer and the carry that falls off the most-significant
end. -/
def mulAddGo (R : Nat) : List Nat → Nat → List Nat × Nat
  | [], carry => ([], carry)
  | b :: bs, carry =>
    let (tl, c) := mulAddGo R bs carry
    let v := b * R + c
    ((v &&& 0xff) :: tl, v >>> 8)

/-- The `while carry > 0 { acc.insert(0, (carry & 0xff) as u8); carry >>= 8 }`
loop.  `fuel` dominates the loop variant (`carry` shrinks by `>>> 8` every
pass, so `fuel = carry` always suffices; see `carryPrependAux_fuel`). -/
def carryPrependAux : Nat → Nat → List Nat → List Nat
  | _, 0, acc => acc
  | 0, _ + 1, acc => acc
  | f + 1, c + 1, acc =>
    carryPrependAux f ((c + 1) >>> 8) (((c + 1) &&& 0xff) :: acc)

/-- Prepend the bytes of `carry` (big-endian) to `acc`. -/
def carryPrepend (carry : Nat) (acc : List Nat) : List Nat :=
  carryPrependAux carry carry acc

/-- One Horner step of the radix decoders: `acc := acc * R + digit`. -/
def radixStep (R : Nat) (acc : List Nat) (digit : Nat) : List Nat :=
  let (acc', c) := mulAddGo R acc digit
  carryPrepend c acc'

/-- `while acc.len() > 1 && acc[0] == 0 { acc.remove(0); }` — strip leading
zero bytes down to at least one byte. -/
def stripKeepOne : List Nat → List Nat
  | [] => []
  | [x] => [x]
  | x :: y :: ys => if x = 0 then stripKeepOne (y :: ys) else x :: y :: ys

end RadixDecode

namespace Base36

/-- `const ALPHABET: &[u8; 36] = b"0123456789abcdefghijklmnopqrstuvwxyz";` -/
def alphabet : List Nat :=
  [48, 49, 50, 51, 52, 53, 54, 55, 56, 57,
   97, 98, 99, 100, 101, 102, 103, 104, 105, 106, 107, 108, 109,
   110, 111, 112, 113, 114, 115, 116, 117, 118, 119, 120, 121, 122]

/-- Rust `char::to_ascii_lowercase`. -/
def asciiLower (c : Char) : Char :=
  if 'A' ≤ c ∧ c ≤ 'Z' then Char.ofNat (c.toNat + 32) else c

/-- `ALPHABET.iter().position(|x| *x == c.to_ascii_lowercase() as u8)`;
note the `as u8` truncation of the code point. -/
def lookup (c : Char) : Option Nat :=
  alphaPos ((asciiLower c).toNat % 256) alphabet

/-- The `for c in s.chars()` Horner loop of `base36_to_bytes`. -/
def decodeLoop : List Char → List Nat → Except SErr (List Nat)
  | [], acc => .ok acc
  | c :: cs, acc =>
    match lookup c with
    | none => .error .invalidBase36Char
    | some d => decodeLoop cs (radixStep 36 acc d)

/-- `Base36::base36_to_bytes`. -/
def base36_to_bytes (s : List Char) : Except SErr (List Nat) :=
  let t := rustTrim s
  if t = [] ∨ t = ['0'] then .ok [0]
  else (decodeLoop t [0]).map stripKeepOne

/-- `Base36::from_base36` (fixed-size decode). -/
def from_base36 (s : List Char) (size : Nat) : Except SErr (List Nat) :=
  match base36_to_bytes s with
  | .error e => .error e
  | .ok bytes =>
    if bytes.length > size ∧ size > 0 then .error (.base36DoesNotFit size)
    else if bytes.length < size ∧ size > 0 then
      .ok (List.replicate (size - bytes.length) 0 ++ bytes)
    else .ok bytes

/-- The inner `while i < n.len()` long-division pass of `to_base36`
(`v = n[i] + rem * 256; n[i] = v / 36; rem = v % 36`), threading `rem`
left to right. -/
def divStep : List Nat → Nat → List Nat × Nat
  | [], rem => ([], rem)
  | b :: bs, rem =>
    let v := b + rem * 256
    let (tl, r') := divStep bs (v % 36)
    (v / 36 :: tl, r')

/-- The outer `while !n.is_empty()` loop of `to_base36`, producing the digit
list least-significant first.  `fuel` dominates the variant
`natOfBytes n + n.length` (each pass divides the value by 36 and strips
leading zeros). -/
def encodeAux : Nat → List Nat → List Nat
  | _, [] => []
  | 0, _ :: _ => []
  | f + 1, b :: bs =>
    let (n', rem) := divStep (b :: bs) 0
    rem :: encodeAux f (n'.dropWhile (· = 0))

/-- `Base36::to_base36`. -/
def to_base36 (bytes : List Nat) : List Char :=
  if bytes = [] ∨ bytes.all (· = 0) then ['0']
  else
    ((encodeAux (natOfBytes bytes + bytes.length) bytes).reverse).map
      (fun d => Char.ofNat (alphabet.getD d 48))

end Base36

namespace Base58

/-- `const ALPHABET: &[u8; 58] =
b"123456789ABCDEFGHJKLMNPQRSTUVWXYZabcdefghijkmnopqrstuvwxyz";` -/
def alphabet : List Nat :=
  [49, 50, 51, 52, 53, 54, 55, 56, 57,
   65, 66, 67, 68, 69, 70, 71, 72, 74, 75, 76, 77, 78,
   80, 81, 82, 83, 84, 85, 86, 87, 88, 89, 90,
   97, 98, 99, 100, 101, 102, 103, 104, 105, 106, 107,
   109, 110, 111, 112, 113, 114, 115, 116, 117, 118, 119, 120, 121, 122]

/-- The `for c in s.bytes()` Horner loop of `base58_to_bytes`. -/
def decodeLoop : List Nat → List Nat → Except SErr (List Nat)
  | [], acc => .ok acc
  | c :: cs, acc =>
    match alphaPos c alphabet with
    | none => .error .invalidBase58Char
    | some d => decodeLoop cs (radixStep 58 acc d)

/-- `Base58::base58_to_bytes`. -/
def base58_to_bytes (s : List Char) : Except SErr (List Nat) :=
  let t := rustTrim s
  if t = [] ∨ t = ['0'] then .ok [0]
  else (decodeLoop (utf8Bytes t) [0]).map stripKeepOne

/-- `Base58::try_from_base58` (fixed-size decode). -/
def try_from_base58 (s : List Char) (size : Nat) : Except SErr (List Nat) :=
  match base58_to_bytes s with
  | .ok bytes =>
    if bytes.length > size ∧ size > 0 then .error (.base58DoesNotFit size)
    else if bytes.length < size ∧ size > 0 then
      .ok (List.replicate (size - bytes.length) 0 ++ bytes)
    else .ok bytes
  | .error e => .error e

/-- The inner `for b in &mut n` long-division pass of `to_base58`
(`v = (rem << 8) | b; b = v / 58; rem = v % 58`). -/
def divStep : List Nat → Nat → List Nat × Nat
  | [], rem => ([], rem)
  | b :: bs, rem =>
    let v := (rem <<< 8) ||| b
    let (tl, r') := divStep bs (v % 58)
    (v / 58 :: tl, r')

/-- The `while !n.is_empty() && n.iter().any(|&b| b != 0)` loop of
`to_base58`; it pushes `ALPHABET[rem]` directly. -/
def encodeAux : Nat → List Nat → List Nat
  | _, [] => []
  | 0, _ :: _ => []
  | f + 1, b :: bs =>
    if (b :: bs).all (· = 0) then []
    else
      let (n', rem) := divStep (b :: bs) 0
      alphabet.getD rem 49 :: encodeAux f (n'.dropWhile (· = 0))

/-- `Base58::to_base58`. -/
def to_base58 (bytes : List Nat) : List Char :=
  if bytes = [] then ['0']
  else if bytes.all (· = 0) then ['0']
  else
    ((encodeAux (natOfBytes bytes + bytes.length) bytes).reverse).map Char.ofNat

end Base58

namespace Base64

/-- `const ALPHABET: &[u8; 64] =
b"ABCDEFGHIJKLMNOPQRSTUVWXYZabcdefghijklmnopqrstuvwxyz0123456789+/";` -/
def alphabet : List Nat :=
  [65, 66, 67, 68, 69, 70, 71, 72, 73, 74, 75, 76, 77,
   78, 79, 80, 81, 82, 83, 84, 85, 86, 87, 88, 89, 90,
   97, 98, 99, 100, 101, 102, 103, 104, 105, 106, 107, 108, 109,
   110, 111, 112, 113, 114, 115, 116, 117, 118, 119, 120, 121, 122,
   48, 49, 50, 51, 52, 53, 54, 55, 56, 57, 43, 47]

/-- The `for c in s.bytes()` Horner loop of `base64_to_bytes`. -/
def decodeLoop : List Nat → List Nat → Except SErr (List Nat)
  | [], acc => .ok acc
  | c :: cs, acc =>
    match alphaPos c alphabet with
    | none => .error .invalidBase64Char
    | some d => decodeLoop cs (radixStep 64 acc d)

/-- `Base64::base64_to_bytes`. -/
def base64_to_bytes (s : List Char) : Except SErr (List Nat) :=
  let t := rustTrim s
  if t = [] ∨ t = ['0'] then .ok [0]
  else (decodeLoop (utf8Bytes t) [0]).map stripKeepOne

/-- `Base64::try_from_base64` (fixed-size decode). -/
def try_from_base64 (s : List Char) (size : Nat) : Except SErr (List Nat) :=
  match base64_to_bytes s with
  | .error e => .error e
  | .ok bytes =>
    if bytes.length > size ∧ size > 0 then .error (.base64DoesNotFit size)
    else if bytes.length < size ∧ size > 0 then
      .ok (List.replicate (size - bytes.length) 0 ++ bytes)
    else .ok bytes

/-- The inner `for b in &mut n` long-division pass of `try_to_base64`
(`v = (rem << 8) | b; b = v / 64; rem = v % 64`). -/
def divStep : List Nat → Nat → List Nat × Nat
  | [], rem => ([], rem)
  | b :: bs, rem =>
    let v := (rem <<< 8) ||| b
    let (tl, r') := divStep bs (v % 64)
    (v / 64 :: tl, r')

/-- The `while !n.is_empty() && n.iter().any(|&b| b != 0)` loop of
`try_to_base64`; it pushes `ALPHABET[rem]` directly. -/
def encodeAux : Nat → List Nat → List Nat
  | _, [] => []
  | 0, _ :: _ => []
  | f + 1, b :: bs =>
    if (b :: bs).all (· = 0) then []
    else
      let (n', rem) := divStep (b :: bs) 0
      alphabet.getD rem 65 :: encodeAux f (n'.dropWhile (· = 0))

/-- `Base64::try_to_base64`; the Rust function is typed fallible but only ever
builds `Ok`. -/
def try_to_base64 (bytes : List Nat) : Except SErr (List Char) :=
  if bytes = [] then .ok ['0']
  else if bytes.all (· = 0) then .ok ['0']
  else
    .ok (((encodeAux (natOfBytes bytes + bytes.length) bytes).reverse).map Char.ofNat)

end Base64

namespace Hex

/-- `const ALPHABET: &[u8; 16] = b"0123456789abcdef";` -/
def alphabet : List Nat :=
  [48, 49, 50, 51, 52, 53, 54, 55, 56, 57, 97, 98, 99, 100, 101, 102]

/-- `Hex::to_hex`: two alphabet characters per byte, high nibble first.  The
Rust code builds a `Vec<u8>` of ASCII bytes and reinterprets it as a string. -/
def to_hex (bytes : List Nat) : List Char :=
  concatMap
    (fun b => [Char.ofNat (alphabet.getD (b >>> 4) 48),
               Char.ofNat (alphabet.getD (b &&& 0x0f) 48)]) bytes

/-- `Hex::from_hex_digit`. -/
def from_hex_digit (c : Nat) : Option Nat :=
  if 48 ≤ c ∧ c ≤ 57 then some (c - 48)
  else if 97 ≤ c ∧ c ≤ 102 then some (10 + (c - 97))
  else if 65 ≤ c ∧ c ≤ 70 then some (10 + (c - 65))
  else none

/-- The `for i in (0..bytes.len()).step_by(2)` loop of `from_hex`.  The
single-byte case is unreachable: the caller has checked the length is even. -/
def pairsLoop : List Nat → Except HexPanic (List Nat)
  | [] => .ok []
  | [_] => .error .oddLength
  | hi :: lo :: rest =>
    match from_hex_digit hi with
    | none => .error .invalidCharacter
    | some h =>
      match from_hex_digit lo with
      | none => .error .invalidCharacter
      | some l => (pairsLoop rest).map (fun out => ((h <<< 4) ||| l) :: out)

/-- `Hex::from_hex`.  In Rust this returns a bare `Vec<u8>` and panics on odd
length (`assert!`) or a non-hex character (`panic!`); the panics are the
`.error` outcomes here.  `s.len()` is the UTF-8 byte length of the trimmed
string. -/
def from_hex (s : List Char) : Except HexPanic (List Nat) :=
  let t := rustTrim s
  if t = [] then .ok []
  else
    let bytes := utf8Bytes t
    if bytes.length % 2 ≠ 0 then .error .oddLength
    else pairsLoop bytes

end Hex

namespace Uuencode

/-- `Uuencode::enc6`: 6-bit value to printable character
(`0` is sent as a backtick, byte 96). -/
def enc6 (v : Nat) : Nat :=
  let w := v &&& 0x3f
  if w = 0 then 96 else w + 0x20

/-- `Uuencode::dec6`: backtick (96) or space (32) decode to 0; bytes
0x20..=0x5f decode via subtract-0x20-mask-0x3f; everything else is invalid. -/
def dec6 (c : Nat) : Option Nat :=
  if c = 96 ∨ c = 32 then some 0
  else if 0x20 ≤ c ∧ c ≤ 0x5f then some ((c - 0x20) &&& 0x3f)
  else none

/-- `Uuencode::enc_len`: `u8::try_from(n).map_or_else(|_| enc6(0), enc6)`. -/
def enc_len (n : Nat) : Nat :=
  if 256 ≤ n then enc6 0 else enc6 n

/-- `Uuencode::dec_len`. -/
def dec_len (c : Nat) : Option Nat :=
  dec6 c

/-- `slice::chunks(k)`: consecutive chunks of `k` elements, the last one
possibly shorter; `k` is 45 or 3 here, never 0.  `fuel = l.length` dominates
the variant (see `chunksOf_eq`). -/
def chunksOfAux (k : Nat) : Nat → List α → List (List α)
  | _, [] => []
  | 0, _ :: _ => []
  | f + 1, x :: xs => (x :: xs).take k :: chunksOfAux k f ((x :: xs).drop k)

/-- `slice::chunks(k)` (for `k > 0`). -/
def chunksOf (k : Nat) (l : List α) : List (List α) :=
  chunksOfAux k l.length l

/-- The four data characters of one 3-byte group
(`triple[0]`, padded with zero bytes at the tail of a short final group). -/
def encGroup (triple : List Nat) : List Nat :=
  let b0 := triple.getD 0 0
  let b1 := triple.getD 1 0
  let b2 := triple.getD 2 0
  let c0 := (b0 >>> 2) &&& 0x3f
  let c1 := (((b0 <<< 4) &&& 0xff) ||| (b1 >>> 4)) &&& 0x3f
  let c2 := (((b1 <<< 2) &&& 0xff) ||| (b2 >>> 6)) &&& 0x3f
  let c3 := b2 &&& 0x3f
  [enc6 c0, enc6 c1, enc6 c2, enc6 c3]

/-- One output line for one up-to-45-byte chunk: length prefix, the encoded
3-byte groups, and a terminating newline (byte 10). -/
def encLine (chunk : List Nat) : List Nat :=
  enc_len chunk.length :: concatMap encGroup (chunksOf 3 chunk) ++ [10]

/-- `Uuencode::to_uuencode`, as the UTF-8 bytes of the returned string (every
produced byte is ASCII, so the bytes and the string coincide). -/
def to_uuencode (bytes : List Nat) : List Nat :=
  concatMap encLine (chunksOf 45 bytes) ++ [96, 10]

/-- One `\r`-strip of `str::lines`: a line loses one trailing carriage
return (byte 13). -/
def stripCR (l : List Nat) : List Nat :=
  if l.getLast? = some 13 then l.dropLast else l

/-- `str::split('\n')` on UTF-8 bytes. -/
def splitNL : List Nat → List (List Nat)
  | [] => [[]]
  | b :: bs =>
    if b = 10 then [] :: splitNL bs
    else
      match splitNL bs with
      | [] => [[b]]
      | p :: ps => (b :: p) :: ps

/-- `str::lines` on UTF-8 bytes: split on newline, drop a final empty piece
(produced by a trailing newline), strip one trailing `\r` per line. -/
def rustLines (s : List Nat) : List (List Nat) :=
  let ps := splitNL s
  (if ps.getLast? = some [] then ps.dropLast else ps).map stripCR

/-- The `while produced < line_len` loop of `from_uuencode`: consume four
characters, decode them to three bytes, keep at most `need` of them. -/
def decodeBody : List Nat → Nat → Except SErr (List Nat)
  | _, 0 => .ok []
  | a :: b :: c :: d :: rest, n + 1 =>
    match dec6 a, dec6 b, dec6 c, dec6 d with
    | some a', some b', some c', some d' =>
      let o0 := ((a' <<< 2) &&& 0xff) ||| (b' >>> 4)
      let o1 := ((b' <<< 4) &&& 0xff) ||| (c' >>> 2)
      let o2 := ((c' <<< 6) &&& 0xff) ||| d'
      (decodeBody rest (n + 1 - min 3 (n + 1))).map
        (fun tail => [o0, o1, o2].take (n + 1) ++ tail)
    | _, _, _, _ => .error .uuInvalidChar
  | _, _ + 1 => .error .uuTruncated

/-- The `for line in uuencoded.lines()` loop of `from_uuencode`.  A line whose
length prefix decodes to 0 is the terminator: the loop breaks, discarding the
remaining lines. -/
def decodeLines : List (List Nat) → Except SErr (List Nat)
  | [] => .ok []
  | line :: rest =>
    if line = [] then decodeLines rest
    else
      match line.head? with
      | none => .error .uuMissingLength
      | some lc =>
        match dec_len lc with
        | none => .error .uuInvalidLength
        | some 0 => .ok []
        | some (n + 1) =>
          match decodeBody line.tail (n + 1) with
          | .error e => .error e
          | .ok bytes =>
            match decodeLines rest with
            | .error e => .error e
            | .ok out => .ok (bytes ++ out)

/-- `Uuencode::from_uuencode`, on the UTF-8 bytes of the input string. -/
def from_uuencode (s : List Nat) : Except SErr (List Nat) :=
  decodeLines (rustLines s)

end Uuencode

/-- `enum Encoding` (crate-level tag; only carried through the glue). -/
inductive Encoding where
  | base36 | base58 | base64 | hex | uuencode
deriving DecidableEq, Repr

/-- `struct EncodedString` (tagged encoded text). -/
structure EncodedString where
  encoding : Encoding
  string : List Char
deriving DecidableEq, Repr

namespace Base64

/-- `impl Encoder for Base64`, `try_encode` (the `unwrap_or_else` feeds an
empty string on the never-taken error branch). -/
def try_encode (bytes : List Nat) : Except SErr EncodedString :=
  .ok ⟨.base64, match try_to_base64 bytes with | .ok s => s | .error _ => []⟩

end Base64

namespace Uuencode

/-- `impl Encoder for Uuencode`, `try_encode`; every byte of `to_uuencode`
output is ASCII, so the string is the bytes read as characters. -/
def try_encode (bytes : List Nat) : Except SErr EncodedString :=
  .ok ⟨.uuencode, (to_uuencode bytes).map Char.ofNat⟩

end Uuencode

/-! ## General helper lemmas -/

theorem char_le_iff (a b : Char) : a ≤ b ↔ a.toNat ≤ b.toNat := by
  rw [Char.le_def, UInt32.le_def, BitVec.le_def]
  exact Iff.rfl

theorem char_eq_iff (a b : Char) : a = b ↔ a.toNat = b.toNat := by
  constructor
  · intro h; rw [h]
  · intro h; exact Char.ext (UInt32.ext h)

theorem toNat_ofNat_valid (n : Nat) (h : n < 0xd800) : (Char.ofNat n).toNat = n := by
  have hv : n.isValidChar := Or.inl h
  simp only [Char.ofNat, hv, dif_pos, Char.ofNatAux, Char.toNat, UInt32.toNat]
  rfl

theorem dropWhile_eq_self_of (p : α → Bool) (l : List α)
    (h : ∀ c ∈ l, p c = false) : l.dropWhile p = l := by
  cases l with
  | nil => rfl
  | cons a as => simp [List.dropWhile, h a (by simp)]

theorem rustTrim_eq_self (s : List Char)
    (h : ∀ c ∈ s, isRustWhitespace c = false) : rustTrim s = s := by
  unfold rustTrim
  rw [dropWhile_eq_self_of _ _ h,
      dropWhile_eq_self_of _ _ (fun c hc => h c (List.mem_reverse.mp hc)),
      List.reverse_reverse]

/-! ## Claim theorems -/

set_option maxRecDepth 8192

/-- C1: the claimed Base36/58/64 round-trip fails for Base64.  The custom
Base64 alphabet places the character `0` at digit value 52, but the encoder
also uses `"0"` as the sentinel for empty/all-zero buffers and the decoder
special-cases `"0"` to `[0]`.  Hence `try_to_base64 [52] = "0"` while decoding
`"0"` (with no size, or with the matching fixed size 1) yields `[0]`, not
`[52]`: `decode(encode([52])) ≠ [52]` although `[52]` is its own canonical
(leading-zero-stripped) form. -/
theorem c1_base64_roundtrip_fails_at_52 :
    Base64.try_to_base64 [52] = .ok ['0'] ∧
    Base64.base64_to_bytes ['0'] = .ok [0] ∧
    Base64.try_from_base64 ['0'] 0 = .ok [0] ∧
    Base64.try_from_base64 ['0'] 1 = .ok [0] ∧
    ([0] : List Nat) ≠ [52] := by
  refine ⟨by decide, by decide, by decide, by decide, by decide⟩

/-- C6: for the three radix codecs, encoding the empty buffer or any all-zero
buffer yields the one-character string `"0"`, and decoding an input whose
whitespace-trimmed form is empty or exactly `"0"` yields the single byte
`[0]`. -/
theorem c6_canonical_zero :
    (Base36.to_base36 [] = ['0']) ∧
    (∀ l : List Nat, (∀ x ∈ l, x = 0) → Base36.to_base36 l = ['0']) ∧
    (∀ s : List Char, rustTrim s = [] ∨ rustTrim s = ['0'] →
      Base36.base36_to_bytes s = .ok [0]) ∧
    (Base58.to_base58 [] = ['0']) ∧
    (∀ l : List Nat, (∀ x ∈ l, x = 0) → Base58.to_base58 l = ['0']) ∧
    (∀ s : List Char, rustTrim s = [] ∨ rustTrim s = ['0'] →
      Base58.base58_to_bytes s = .ok [0]) ∧
    (Base64.try_to_base64 [] = .ok ['0']) ∧
    (∀ l : List Nat, (∀ x ∈ l, x = 0) → Base64.try_to_base64 l = .ok ['0']) ∧
    (∀ s : List Char, rustTrim s = [] ∨ rustTrim s = ['0'] →
      Base64.base64_to_bytes s = .ok [0]) := by
  refine ⟨rfl, ?_, ?_, rfl, ?_, ?_, rfl, ?_, ?_⟩
  · intro l h
    have : l.all (· = 0) = true := List.all_eq_true.mpr (fun x hx => by
      simpa using h x hx)
    unfold Base36.to_base36
    rw [if_pos (Or.inr this)]
  · intro s h
    unfold Base36.base36_to_bytes
    simp only []
    rw [if_pos h]
  · intro l h
    have : l.all (· = 0) = true := List.all_eq_true.mpr (fun x hx => by
      simpa using h x hx)
    unfold Base58.to_base58
    cases l with
    | nil => rfl
    | cons a as => rw [if_neg (by simp), if_pos this]
  · intro s h
    unfold Base58.base58_to_bytes
    simp only []
    rw [if_pos h]
  · intro l h
    have : l.all (· = 0) = true := List.all_eq_true.mpr (fun x hx => by
      simpa using h x hx)
    unfold Base64.try_to_base64
    cases l with
    | nil => rfl
    | cons a as => rw [if_neg (by simp), if_pos this]
  · intro s h
    unfold Base64.base64_to_bytes
    simp only []
    rw [if_pos h]

/-- C6 witness: the universally quantified parts of `c6_canonical_zero`
instantiated at concrete inputs. -/
theorem c6_canonical_zero_witness :
    Base36.to_base36 [0, 0] = ['0'] ∧
    Base36.base36_to_bytes [' ', '0', ' '] = .ok [0] ∧
    Base58.to_base58 [0, 0, 0] = ['0'] ∧
    Base58.base58_to_bytes [] = .ok [0] ∧
    Base64.try_to_base64 [0] = .ok ['0'] ∧
    Base64.base64_to_bytes ['\t', '0'] = .ok [0] :=
  ⟨c6_canonical_zero.2.1 [0, 0] (by decide),
   c6_canonical_zero.2.2.1 [' ', '0', ' '] (Or.inr (by decide)),
   c6_canonical_zero.2.2.2.2.1 [0, 0, 0] (by decide),
   c6_canonical_zero.2.2.2.2.2.1 [] (Or.inl (by decide)),
   c6_canonical_zero.2.2.2.2.2.2.2.1 [0] (by decide),
   c6_canonical_zero.2.2.2.2.2.2.2.2 ['\t', '0'] (Or.inr (by decide))⟩

/-- C5: fixed-size decode contract of the three radix codecs.  Whenever the
plain decoder succeeds with the minimal byte string `bs`: a positive `size`
smaller than `bs.length` makes the fixed-size decode fail with the
does-not-fit error; a positive `size ≥ bs.length` returns `bs` left-padded
with zero bytes to exactly `size` bytes; `size = 0` returns `bs` unchanged. -/
theorem c5_fixed_size_decode :
    ∀ (s : List Char) (bs : List Nat) (size : Nat),
      (Base36.base36_to_bytes s = .ok bs →
        (0 < size → size < bs.length →
          Base36.from_base36 s size = .error (.base36DoesNotFit size)) ∧
        (0 < size → bs.length ≤ size →
          Base36.from_base36 s size = .ok (List.replicate (size - bs.length) 0 ++ bs)) ∧
        Base36.from_base36 s 0 = .ok bs) ∧
      (Base58.base58_to_bytes s = .ok bs →
        (0 < size → size < bs.length →
          Base58.try_from_base58 s size = .error (.base58DoesNotFit size)) ∧
        (0 < size → bs.length ≤ size →
          Base58.try_from_base58 s size = .ok (List.replicate (size - bs.length) 0 ++ bs)) ∧
        Base58.try_from_base58 s 0 = .ok bs) ∧
      (Base64.base64_to_bytes s = .ok bs →
        (0 < size → size < bs.length →
          Base64.try_from_base64 s size = .error (.base64DoesNotFit size)) ∧
        (0 < size → bs.length ≤ size →
          Base64.try_from_base64 s size = .ok (List.replicate (size - bs.length) 0 ++ bs)) ∧
        Base64.try_from_base64 s 0 = .ok bs) := by
  intro s bs size
  refine ⟨fun h => ?_, fun h => ?_, fun h => ?_⟩
  · unfold Base36.from_base36
    rw [h]
    dsimp only
    refine ⟨fun hpos hlt => ?_, fun hpos hle => ?_, ?_⟩
    · rw [if_pos ⟨hlt, hpos⟩]
    · rw [if_neg (by omega)]
      rcases Nat.lt_or_ge bs.length size with hlt | hge
      · rw [if_pos ⟨hlt, hpos⟩]
      · have heq : bs.length = size := Nat.le_antisymm hle hge
        rw [if_neg (by omega)]
        rw [heq, Nat.sub_self, List.replicate_zero, List.nil_append]
    · rw [if_neg (by omega), if_neg (by omega)]
  · unfold Base58.try_from_base58
    rw [h]
    dsimp only
    refine ⟨fun hpos hlt => ?_, fun hpos hle => ?_, ?_⟩
    · rw [if_pos ⟨hlt, hpos⟩]
    · rw [if_neg (by omega)]
      rcases Nat.lt_or_ge bs.length size with hlt | hge
      · rw [if_pos ⟨hlt, hpos⟩]
      · have heq : bs.length = size := Nat.le_antisymm hle hge
        rw [if_neg (by omega)]
        rw [heq, Nat.sub_self, List.replicate_zero, List.nil_append]
    · rw [if_neg (by omega), if_neg (by omega)]
  · unfold Base64.try_from_base64
    rw [h]
    dsimp only
    refine ⟨fun hpos hlt => ?_, fun hpos hle => ?_, ?_⟩
    · rw [if_pos ⟨hlt, hpos⟩]
    · rw [if_neg (by omega)]
      rcases Nat.lt_or_ge bs.length size with hlt | hge
      · rw [if_pos ⟨hlt, hpos⟩]
      · have heq : bs.length = size := Nat.le_antisymm hle hge
        rw [if_neg (by omega)]
        rw [heq, Nat.sub_self, List.replicate_zero, List.nil_append]
    · rw [if_neg (by omega), if_neg (by omega)]

/-- C5 witness: the contract at concrete inputs (`"zz"` decodes to two bytes
in each codec; sizes 1, 3 and 0 exercise the three branches). -/
theorem c5_fixed_size_decode_witness :
    Base36.from_base36 ['z', 'z'] 1 = .error (.base36DoesNotFit 1) ∧
    Base36.from_base36 ['z', 'z'] 3 = .ok [0, 5, 15] ∧
    Base36.from_base36 ['z', 'z'] 0 = .ok [5, 15] ∧
    Base58.try_from_base58 ['z', 'z'] 1 = .error (.base58DoesNotFit 1) ∧
    Base58.try_from_base58 ['z', 'z'] 3 = .ok [0, 13, 35] ∧
    Base58.try_from_base58 ['z', 'z'] 0 = .ok [13, 35] ∧
    Base64.try_from_base64 ['z', 'z'] 1 = .error (.base64DoesNotFit 1) ∧
    Base64.try_from_base64 ['z', 'z'] 3 = .ok [0, 12, 243] ∧
    Base64.try_from_base64 ['z', 'z'] 0 = .ok [12, 243] := by
  have h36 := (c5_fixed_size_decode ['z', 'z'] [5, 15] 1).1 (by decide)
  have h36b := (c5_fixed_size_decode ['z', 'z'] [5, 15] 3).1 (by decide)
  have h58 := (c5_fixed_size_decode ['z', 'z'] [13, 35] 1).2.1 (by decide)
  have h58b := (c5_fixed_size_decode ['z', 'z'] [13, 35] 3).2.1 (by decide)
  have h64 := (c5_fixed_size_decode ['z', 'z'] [12, 243] 1).2.2 (by decide)
  have h64b := (c5_fixed_size_decode ['z', 'z'] [12, 243] 3).2.2 (by decide)
  exact ⟨h36.1 (by decide) (by decide), h36b.2.1 (by decide) (by decide),
         h36.2.2, h58.1 (by decide) (by decide), h58b.2.1 (by decide) (by decide),
         h58.2.2, h64.1 (by decide) (by decide), h64b.2.1 (by decide) (by decide),
         h64.2.2⟩

/-- C4 counterexample: the claim promises an odd-length error for every
trimmed non-empty input with an odd number of *characters*, returned as an
explicit result.  The code measures the UTF-8 *byte* length and *panics*.
For the one-character input `"é"` (code point 233, two UTF-8 bytes) the byte
length is even, so `from_hex` instead hits the invalid-character panic —
not an odd-length failure. -/
theorem c4_counterexample :
    rustTrim [Char.ofNat 233] = [Char.ofNat 233] ∧
    ([Char.ofNat 233] : List Char).length % 2 = 1 ∧
    Hex.from_hex [Char.ofNat 233] = .error .invalidCharacter ∧
    Hex.from_hex [Char.ofNat 233] ≠ .error .oddLength := by
  refine ⟨by decide, by decide, by decide, by decide⟩

/-- C4 (amended): for every input whose whitespace-trimmed form is non-empty
with an odd number of UTF-8 *bytes*, `Hex::from_hex` always fails with the
odd-length condition — but that failure is a documented `assert!` panic
(modelled as the `.error .oddLength` outcome), not an error value returned to
the caller: the Rust function returns a bare `Vec<u8>`. -/
theorem c4_hex_odd_length (s : List Char)
    (h1 : rustTrim s ≠ [])
    (h2 : (utf8Bytes (rustTrim s)).length % 2 = 1) :
    Hex.from_hex s = .error .oddLength := by
  unfold Hex.from_hex
  rw [if_neg h1, if_pos (by omega)]

/-- C4 witness: `"abc"` — three ASCII characters, hence three bytes. -/
theorem c4_hex_odd_length_witness :
    Hex.from_hex ['a', 'b', 'c'] = .error .oddLength :=
  c4_hex_odd_length ['a', 'b', 'c'] (by decide) (by decide)

/-- A base36 digit lookup failure anywhere in the character list makes the
Horner loop fail with the invalid-character error. -/
theorem base36_decodeLoop_err :
    ∀ (cs : List Char) (acc : List Nat), (∃ c ∈ cs, Base36.lookup c = none) →
      Base36.decodeLoop cs acc = .error .invalidBase36Char := by
  intro cs
  induction cs with
  | nil => intro acc h; simp at h
  | cons c cs ih =>
    intro acc h
    cases hc : Base36.lookup c with
    | none => simp [Base36.decodeLoop, hc]
    | some d =>
      have hrest : ∃ x ∈ cs, Base36.lookup x = none := by
        rcases h with ⟨x, hx, hlx⟩
        rcases List.mem_cons.mp hx with hx | hx
        · subst hx; rw [hc] at hlx; cases hlx
        · exact ⟨x, hx, hlx⟩
      simp [Base36.decodeLoop, hc, ih _ hrest]

/-- A base58 alphabet lookup failure anywhere in the byte list makes the
Horner loop fail with the invalid-character error. -/
theorem base58_decodeLoop_err :
    ∀ (bs : List Nat) (acc : List Nat), (∃ y ∈ bs, alphaPos y Base58.alphabet = none) →
      Base58.decodeLoop bs acc = .error .invalidBase58Char := by
  intro bs
  induction bs with
  | nil => intro acc h; simp at h
  | cons b bs ih =>
    intro acc h
    cases hb : alphaPos b Base58.alphabet with
    | none => simp [Base58.decodeLoop, hb]
    | some d =>
      have hrest : ∃ y ∈ bs, alphaPos y Base58.alphabet = none := by
        rcases h with ⟨y, hy, hly⟩
        rcases List.mem_cons.mp hy with hy | hy
        · subst hy; rw [hb] at hly; cases hly
        · exact ⟨y, hy, hly⟩
      simp [Base58.decodeLoop, hb, ih _ hrest]

/-- A base64 alphabet lookup failure anywhere in the byte list makes the
Horner loop fail with the invalid-character error. -/
theorem base64_decodeLoop_err :
    ∀ (bs : List Nat) (acc : List Nat), (∃ y ∈ bs, alphaPos y Base64.alphabet = none) →
      Base64.decodeLoop bs acc = .error .invalidBase64Char := by
  intro bs
  induction bs with
  | nil => intro acc h; simp at h
  | cons b bs ih =>
    intro acc h
    cases hb : alphaPos b Base64.alphabet with
    | none => simp [Base64.decodeLoop, hb]
    | some d =>
      have hrest : ∃ y ∈ bs, alphaPos y Base64.alphabet = none := by
        rcases h with ⟨y, hy, hly⟩
        rcases List.mem_cons.mp hy with hy | hy
        · subst hy; rw [hb] at hly; cases hly
        · exact ⟨y, hy, hly⟩
      simp [Base64.decodeLoop, hb, ih _ hrest]

/-- A non-hex byte anywhere in the list makes the hex pair loop fail (with
one of the two panics). -/
theorem hex_pairsLoop_err :
    ∀ bs : List Nat, (∃ y ∈ bs, Hex.from_hex_digit y = none) →
      ∃ p, Hex.pairsLoop bs = .error p
  | [], h => by simp at h
  | [x], _ => ⟨.oddLength, rfl⟩
  | hi :: lo :: rest, h => by
    cases hhi : Hex.from_hex_digit hi with
    | none => exact ⟨.invalidCharacter, by simp [Hex.pairsLoop, hhi]⟩
    | some hv =>
      cases hlo : Hex.from_hex_digit lo with
      | none => exact ⟨.invalidCharacter, by simp [Hex.pairsLoop, hhi, hlo]⟩
      | some lv =>
        have hrest : ∃ y ∈ rest, Hex.from_hex_digit y = none := by
          rcases h with ⟨y, hy, hly⟩
          rcases List.mem_cons.mp hy with hy | hy
          · subst hy; rw [hhi] at hly; cases hly
          · rcases List.mem_cons.mp hy with hy | hy
            · subst hy; rw [hlo] at hly; cases hly
            · exact ⟨y, hy, hly⟩
        obtain ⟨p, hp⟩ := hex_pairsLoop_err rest hrest
        exact ⟨p, by simp [Hex.pairsLoop, hhi, hlo, hp, Except.map]⟩

/-- C3 counterexample: the input `"0"` is non-empty after trimming and its
only character is absent from the Base58 alphabet (which has no digit zero),
yet Base58 decode succeeds with `[0]` via the zero-sentinel special case
instead of failing with an invalid-character error. -/
theorem c3_counterexample :
    rustTrim ['0'] = ['0'] ∧
    (∀ y ∈ utf8Bytes ['0'], y ∉ Base58.alphabet) ∧
    Base58.base58_to_bytes ['0'] = .ok [0] := by
  refine ⟨by decide, by decide, by decide⟩

/-- C3 (amended): invalid-character rejection holds per codec with these
provisos forced by the code.  For Base36/58/64 the trimmed input must
moreover not be the special-cased `""`/`"0"` (the counterexample shows `"0"`
is accepted by Base58 although `'0'` is outside its alphabet), and "in the
alphabet" means what each decoder actually compares: Base58/64 compare UTF-8
bytes, Base36 compares the ASCII-lowercased code point truncated to a byte
(`as u8`), so e.g. U+0130 is accepted as the digit `0`.  Hex rejects any
non-hex byte, but by panicking (modelled as an error), not by returning an
error.  Uuencode only examines consumed positions: text after the backtick
terminator line is ignored, as the last conjunct shows on `"` ++ "`" ++ `\n~"`
— so the claim does not extend to it. -/
theorem c3_invalid_character :
    (∀ s : List Char, rustTrim s ≠ [] → rustTrim s ≠ ['0'] →
      (∃ c ∈ rustTrim s, Base36.lookup c = none) →
      Base36.base36_to_bytes s = .error .invalidBase36Char) ∧
    (∀ s : List Char, rustTrim s ≠ [] → rustTrim s ≠ ['0'] →
      (∃ y ∈ utf8Bytes (rustTrim s), alphaPos y Base58.alphabet = none) →
      Base58.base58_to_bytes s = .error .invalidBase58Char) ∧
    (∀ s : List Char, rustTrim s ≠ [] → rustTrim s ≠ ['0'] →
      (∃ y ∈ utf8Bytes (rustTrim s), alphaPos y Base64.alphabet = none) →
      Base64.base64_to_bytes s = .error .invalidBase64Char) ∧
    (∀ s : List Char, rustTrim s ≠ [] →
      (∃ y ∈ utf8Bytes (rustTrim s), Hex.from_hex_digit y = none) →
      ∃ p, Hex.from_hex s = .error p) ∧
    Uuencode.from_uuencode [96, 10, 126] = .ok [] := by
  refine ⟨?_, ?_, ?_, ?_, by decide⟩
  · intro s h1 h2 hx
    unfold Base36.base36_to_bytes
    rw [if_neg (by simp [h1, h2]), base36_decodeLoop_err _ _ hx]
    rfl
  · intro s h1 h2 hx
    unfold Base58.base58_to_bytes
    rw [if_neg (by simp [h1, h2]), base58_decodeLoop_err _ _ hx]
    rfl
  · intro s h1 h2 hx
    unfold Base64.base64_to_bytes
    rw [if_neg (by simp [h1, h2]), base64_decodeLoop_err _ _ hx]
    rfl
  · intro s h1 hx
    unfold Hex.from_hex
    rw [if_neg h1]
    by_cases hev : (utf8Bytes (rustTrim s)).length % 2 ≠ 0
    · exact ⟨.oddLength, by rw [if_pos hev]⟩
    · rw [if_neg hev]
      exact hex_pairsLoop_err _ hx

/-- C3 witness: rejection at concrete inputs — `"!"` for the three radix
codecs and `"gg"` for hex. -/
theorem c3_invalid_character_witness :
    Base36.base36_to_bytes ['!'] = .error .invalidBase36Char ∧
    Base58.base58_to_bytes ['!'] = .error .invalidBase58Char ∧
    Base64.base64_to_bytes ['!'] = .error .invalidBase64Char ∧
    (∃ p, Hex.from_hex ['g', 'g'] = .error p) :=
  ⟨c3_invalid_character.1 ['!'] (by decide) (by decide) (by decide),
   c3_invalid_character.2.1 ['!'] (by decide) (by decide) (by decide),
   c3_invalid_character.2.2.1 ['!'] (by decide) (by decide) (by decide),
   c3_invalid_character.2.2.2.1 ['g', 'g'] (by decide) (by decide)⟩

/-- Code points in the ASCII letter/digit region are not whitespace. -/
theorem ws_false_of_range (c : Char) (h1 : 33 ≤ c.toNat) (h2 : c.toNat ≤ 132) :
    isRustWhitespace c = false := by
  simp only [isRustWhitespace, Bool.or_eq_false_iff, Bool.and_eq_false_iff,
    decide_eq_false_iff_not, not_le, beq_eq_false_iff_ne, ne_eq]
  omega

/-- `to_ascii_lowercase` at the level of code points. -/
theorem asciiLower_toNat (c : Char) :
    (Base36.asciiLower c).toNat =
      if 65 ≤ c.toNat ∧ c.toNat ≤ 90 then c.toNat + 32 else c.toNat := by
  unfold Base36.asciiLower
  by_cases h : 'A' ≤ c ∧ c ≤ 'Z'
  · have hn : 65 ≤ c.toNat ∧ c.toNat ≤ 90 := by
      constructor
      · exact (char_le_iff 'A' c).mp h.1
      · exact (char_le_iff c 'Z').mp h.2
    rw [if_pos h, if_pos hn, toNat_ofNat_valid _ (by omega)]
  · have hn : ¬(65 ≤ c.toNat ∧ c.toNat ≤ 90) := by
      intro hx
      exact h ⟨(char_le_iff 'A' c).mpr hx.1, (char_le_iff c 'Z').mpr hx.2⟩
    rw [if_neg h, if_neg hn]

/-- Ascii-lowercasing is idempotent. -/
theorem asciiLower_idem (c : Char) :
    Base36.asciiLower (Base36.asciiLower c) = Base36.asciiLower c := by
  rw [char_eq_iff, asciiLower_toNat, asciiLower_toNat c]
  by_cases h : 65 ≤ c.toNat ∧ c.toNat ≤ 90
  · rw [if_pos h, if_neg (by omega)]
  · rw [if_neg h, if_neg h]

/-- Ascii-lowercasing does not change whitespace status. -/
theorem ws_asciiLower (c : Char) :
    isRustWhitespace (Base36.asciiLower c) = isRustWhitespace c := by
  by_cases h : 65 ≤ c.toNat ∧ c.toNat ≤ 90
  · rw [ws_false_of_range c (by omega) (by omega)]
    apply ws_false_of_range <;> rw [asciiLower_toNat, if_pos h] <;> omega
  · have : (Base36.asciiLower c).toNat = c.toNat := by rw [asciiLower_toNat, if_neg h]
    have hc : Base36.asciiLower c = c := (char_eq_iff _ _).mpr this
    rw [hc]

/-- Trimming commutes with ascii-lowercasing. -/
theorem rustTrim_map_asciiLower (s : List Char) :
    rustTrim (s.map Base36.asciiLower) = (rustTrim s).map Base36.asciiLower := by
  have hfun : isRustWhitespace ∘ Base36.asciiLower = isRustWhitespace :=
    funext ws_asciiLower
  unfold rustTrim
  rw [List.dropWhile_map, hfun, ← List.map_reverse, List.dropWhile_map, hfun,
    ← List.map_reverse]

/-- The base36 digit of an ascii-lowercased character is the digit of the
character itself. -/
theorem lookup_asciiLower (c : Char) :
    Base36.lookup (Base36.asciiLower c) = Base36.lookup c := by
  unfold Base36.lookup
  rw [asciiLower_idem]

/-- The base36 Horner loop is insensitive to ascii-lowercasing its input. -/
theorem base36_decodeLoop_map_asciiLower :
    ∀ (cs : List Char) (acc : List Nat),
      Base36.decodeLoop (cs.map Base36.asciiLower) acc = Base36.decodeLoop cs acc := by
  intro cs
  induction cs with
  | nil => intro acc; rfl
  | cons c cs ih =>
    intro acc
    simp only [List.map_cons, Base36.decodeLoop, lookup_asciiLower]
    cases Base36.lookup c with
    | none => rfl
    | some d => exact ih _

/-- C9: base36 decoding is case-insensitive — `base36_to_bytes` returns the
same result on the ascii-lowercased string as on the string itself, and each
uppercase letter `A`..`Z` maps to the digit 10..35 of its lowercase
counterpart rather than causing an invalid-character failure. -/
theorem c9_base36_case_insensitive :
    (∀ s : List Char,
      Base36.base36_to_bytes (s.map Base36.asciiLower) = Base36.base36_to_bytes s) ∧
    (∀ k : Fin 26, Base36.lookup (Char.ofNat (65 + k.val)) = some (10 + k.val)) := by
  constructor
  · intro s
    unfold Base36.base36_to_bytes
    rw [rustTrim_map_asciiLower]
    have hzero : ((rustTrim s).map Base36.asciiLower = [] ∨
        (rustTrim s).map Base36.asciiLower = ['0']) ↔
        (rustTrim s = [] ∨ rustTrim s = ['0']) := by
      constructor
      · rintro (h | h)
        · exact Or.inl (List.map_eq_nil_iff.mp h)
        · right
          cases ht : rustTrim s with
          | nil => rw [ht] at h; cases h
          | cons c cs =>
            rw [ht] at h
            simp only [List.map_cons] at h
            have hcs : cs = [] := by
              have := congrArg List.length h
              simpa using this
            subst hcs
            have hc : Base36.asciiLower c = '0' := by
              simpa using h
            have hv := congrArg Char.toNat hc
            rw [asciiLower_toNat] at hv
            have : c.toNat = 48 := by
              by_cases hu : 65 ≤ c.toNat ∧ c.toNat ≤ 90
              · rw [if_pos hu] at hv; simp at hv; omega
              · rw [if_neg hu] at hv; simpa using hv
            rw [(char_eq_iff c '0').mpr (by simpa using this)]
      · rintro (h | h)
        · exact Or.inl (by rw [h]; rfl)
        · exact Or.inr (by rw [h]; rfl)
    by_cases h : rustTrim s = [] ∨ rustTrim s = ['0']
    · rw [if_pos (hzero.mpr h), if_pos h]
    · rw [if_neg (fun hx => h (hzero.mp hx)), if_neg h,
        base36_decodeLoop_map_asciiLower]
  · decide

/-- The base36 long-division pass returns a remainder below 36. -/
theorem base36_divStep_snd_lt :
    ∀ (n : List Nat) (rem : Nat), rem < 36 → (Base36.divStep n rem).2 < 36 := by
  intro n
  induction n with
  | nil => intro rem h; exact h
  | cons b bs ih =>
    intro rem _
    simp only [Base36.divStep]
    exact ih _ (Nat.mod_lt _ (by omega))

/-- Every digit produced by the base36 encoding loop is below 36. -/
theorem base36_encodeAux_lt :
    ∀ (fuel : Nat) (n : List Nat), ∀ d ∈ Base36.encodeAux fuel n, d < 36
  | _, [] => by simp [Base36.encodeAux]
  | 0, _ :: _ => by simp [Base36.encodeAux]
  | f + 1, b :: bs => by
    intro d hd
    simp only [Base36.encodeAux] at hd
    rcases List.mem_cons.mp hd with h | h
    · subst h; exact base36_divStep_snd_lt _ _ (by omega)
    · exact base36_encodeAux_lt f _ _ h

/-- The base58 long-division pass returns a remainder below 58. -/
theorem base58_divStep_snd_lt :
    ∀ (n : List Nat) (rem : Nat), rem < 58 → (Base58.divStep n rem).2 < 58 := by
  intro n
  induction n with
  | nil => intro rem h; exact h
  | cons b bs ih =>
    intro rem _
    simp only [Base58.divStep]
    exact ih _ (Nat.mod_lt _ (by omega))

/-- Every byte pushed by the base58 encoding loop is an alphabet byte. -/
theorem base58_encodeAux_mem :
    ∀ (fuel : Nat) (n : List Nat), ∀ y ∈ Base58.encodeAux fuel n, y ∈ Base58.alphabet
  | _, [] => by simp [Base58.encodeAux]
  | 0, _ :: _ => by simp [Base58.encodeAux]
  | f + 1, b :: bs => by
    intro y hy
    simp only [Base58.encodeAux] at hy
    by_cases hz : (b :: bs).all (· = 0)
    · rw [if_pos hz] at hy; cases hy
    · rw [if_neg hz] at hy
      rcases List.mem_cons.mp hy with h | h
      · subst h
        have hlt : (Base58.divStep (b :: bs) 0).2 < 58 :=
          base58_divStep_snd_lt _ _ (by omega)
        rw [List.getD_eq_getElem _ _ (by simpa [Base58.alphabet] using hlt)]
        exact List.getElem_mem _
      · exact base58_encodeAux_mem f _ _ h

/-- The base64 long-division pass returns a remainder below 64. -/
theorem base64_divStep_snd_lt :
    ∀ (n : List Nat) (rem : Nat), rem < 64 → (Base64.divStep n rem).2 < 64 := by
  intro n
  induction n with
  | nil => intro rem h; exact h
  | cons b bs ih =>
    intro rem _
    simp only [Base64.divStep]
    exact ih _ (Nat.mod_lt _ (by omega))

/-- Every byte pushed by the base64 encoding loop is an alphabet byte. -/
theorem base64_encodeAux_mem :
    ∀ (fuel : Nat) (n : List Nat), ∀ y ∈ Base64.encodeAux fuel n, y ∈ Base64.alphabet
  | _, [] => by simp [Base64.encodeAux]
  | 0, _ :: _ => by simp [Base64.encodeAux]
  | f + 1, b :: bs => by
    intro y hy
    simp only [Base64.encodeAux] at hy
    by_cases hz : (b :: bs).all (· = 0)
    · rw [if_pos hz] at hy; cases hy
    · rw [if_neg hz] at hy
      rcases List.mem_cons.mp hy with h | h
      · subst h
        have hlt : (Base64.divStep (b :: bs) 0).2 < 64 :=
          base64_divStep_snd_lt _ _ (by omega)
        rw [List.getD_eq_getElem _ _ (by simpa [Base64.alphabet] using hlt)]
        exact List.getElem_mem _
      · exact base64_encodeAux_mem f _ _ h

/-- C8: encoding is total and never fails.  `try_to_base64` and the
`Encoder::try_encode` implementations (Base64, Uuencode) always return
`Ok`; each radix encoder emits only characters drawn from its alphabet
(plus the `"0"` sentinel, which for Base58 lies outside the alphabet), so
the `ALPHABET[rem]` indexing that would panic on an out-of-range digit
never does; and `Hex::to_hex` likewise emits only hex-alphabet characters
for every byte buffer, so its `ALPHABET[nibble]` indexing never panics
either. -/
theorem c8_encode_total :
    (∀ b : List Nat, ∃ s, Base64.try_to_base64 b = .ok s) ∧
    (∀ b : List Nat, ∃ es, Base64.try_encode b = .ok es) ∧
    (∀ b : List Nat, ∃ es, Uuencode.try_encode b = .ok es) ∧
    (∀ b : List Nat, ∀ c ∈ Base36.to_base36 b, c ∈ Base36.alphabet.map Char.ofNat) ∧
    (∀ b : List Nat, ∀ c ∈ Base58.to_base58 b,
      c = '0' ∨ c ∈ Base58.alphabet.map Char.ofNat) ∧
    (∀ (b : List Nat) (s : List Char), Base64.try_to_base64 b = .ok s →
      ∀ c ∈ s, c ∈ Base64.alphabet.map Char.ofNat) ∧
    (∀ b : List Nat, (∀ x ∈ b, x < 256) →
      ∀ c ∈ Hex.to_hex b, c ∈ Hex.alphabet.map Char.ofNat) := by
  refine ⟨?_, ?_, ?_, ?_, ?_, ?_, ?_⟩
  · intro b
    unfold Base64.try_to_base64
    by_cases h1 : b = []
    · rw [if_pos h1]; exact ⟨_, rfl⟩
    · rw [if_neg h1]
      by_cases h2 : b.all (· = 0)
      · rw [if_pos h2]; exact ⟨_, rfl⟩
      · rw [if_neg h2]; exact ⟨_, rfl⟩
  · intro b; exact ⟨_, rfl⟩
  · intro b; exact ⟨_, rfl⟩
  · intro b c hc
    unfold Base36.to_base36 at hc
    by_cases h1 : b = [] ∨ b.all (· = 0)
    · rw [if_pos h1] at hc
      have : c = '0' := by simpa using hc
      subst this
      decide
    · rw [if_neg h1] at hc
      rcases List.mem_map.mp hc with ⟨d, hd, hcd⟩
      have hdlt : d < 36 :=
        base36_encodeAux_lt _ _ _ (List.mem_reverse.mp hd)
      have : Base36.alphabet.getD d 48 ∈ Base36.alphabet := by
        rw [List.getD_eq_getElem _ _ (by simpa [Base36.alphabet] using hdlt)]
        exact List.getElem_mem _
      exact List.mem_map.mpr ⟨_, this, hcd⟩
  · intro b c hc
    unfold Base58.to_base58 at hc
    by_cases h1 : b = []
    · rw [if_pos h1] at hc
      exact Or.inl (by simpa using hc)
    · rw [if_neg h1] at hc
      by_cases h2 : b.all (· = 0)
      · rw [if_pos h2] at hc
        exact Or.inl (by simpa using hc)
      · rw [if_neg h2] at hc
        rcases List.mem_map.mp hc with ⟨y, hy, hcy⟩
        exact Or.inr (List.mem_map.mpr
          ⟨y, base58_encodeAux_mem _ _ _ (List.mem_reverse.mp hy), hcy⟩)
  · intro b s hs c hc
    unfold Base64.try_to_base64 at hs
    by_cases h1 : b = []
    · rw [if_pos h1] at hs
      cases hs
      have : c = '0' := by simpa using hc
      subst this
      decide
    · rw [if_neg h1] at hs
      by_cases h2 : b.all (· = 0)
      · rw [if_pos h2] at hs
        cases hs
        have : c = '0' := by simpa using hc
        subst this
        decide
      · rw [if_neg h2] at hs
        cases hs
        rcases List.mem_map.mp hc with ⟨y, hy, hcy⟩
        exact List.mem_map.mpr
          ⟨y, base64_encodeAux_mem _ _ _ (List.mem_reverse.mp hy), hcy⟩
  · intro b
    induction b with
    | nil => intro _ c hc; cases hc
    | cons x xs ih =>
      intro hb c hc
      have hx : x < 256 := hb x (by simp)
      have hhi : x >>> 4 < 16 := by
        have h := Nat.shiftRight_eq_div_pow x 4
        omega
      have hlo : x &&& 15 < 16 := by
        have h := Nat.and_le_right (n := x) (m := 15)
        omega
      have hfin : ∀ v : Fin 16,
          Char.ofNat (Hex.alphabet.getD v.val 48) ∈ Hex.alphabet.map Char.ofNat := by
        decide
      simp only [Hex.to_hex, concatMap] at hc
      rcases List.mem_append.mp hc with hc | hc
      · rcases List.mem_cons.mp hc with hc | hc
        · subst hc
          exact hfin ⟨x >>> 4, hhi⟩
        · rcases List.mem_cons.mp hc with hc | hc
          · subst hc
            exact hfin ⟨x &&& 15, hlo⟩
          · cases hc
      · exact ih (fun y hy => hb y (by simp [hy])) c (by
          simpa [Hex.to_hex, concatMap] using hc)

/-- C8 witness: the quantified parts of `c8_encode_total` at concrete
inputs. -/
theorem c8_encode_total_witness :
    (∃ s, Base64.try_to_base64 [1, 2, 3] = .ok s) ∧
    (∃ es, Base64.try_encode [] = .ok es) ∧
    (∃ es, Uuencode.try_encode [0] = .ok es) ∧
    'r' ∈ Base36.alphabet.map Char.ofNat ∧
    ('2' = '0' ∨ '2' ∈ Base58.alphabet.map Char.ofNat) ∧
    'B' ∈ Base64.alphabet.map Char.ofNat ∧
    'a' ∈ Hex.alphabet.map Char.ofNat :=
  ⟨c8_encode_total.1 [1, 2, 3],
   c8_encode_total.2.1 [],
   c8_encode_total.2.2.1 [0],
   c8_encode_total.2.2.2.1 [99] 'r' (by decide),
   c8_encode_total.2.2.2.2.1 [99] '2' (by decide),
   c8_encode_total.2.2.2.2.2.1 [1] ['B'] (by decide) 'B' (by decide),
   c8_encode_total.2.2.2.2.2.2 [171] (by decide) 'a' (by decide)⟩

/-- Splitting on newlines always yields at least one piece. -/
theorem splitNL_ne_nil : ∀ s : List Nat, Uuencode.splitNL s ≠ []
  | [] => by simp [Uuencode.splitNL]
  | b :: bs => by
    by_cases hb : b = 10
    · subst hb; simp [Uuencode.splitNL]
    · simp only [Uuencode.splitNL, if_neg hb]
      cases h : Uuencode.splitNL bs with
      | nil => simp
      | cons p ps => simp

/-- Unfolding: a newline starts a fresh piece. -/
theorem splitNL_cons_ten (bs : List Nat) :
    Uuencode.splitNL (10 :: bs) = [] :: Uuencode.splitNL bs := rfl

/-- Unfolding: a non-newline byte joins the first piece. -/
theorem splitNL_cons_ne (b : Nat) (bs : List Nat) (h : b ≠ 10) :
    Uuencode.splitNL (b :: bs) =
      match Uuencode.splitNL bs with
      | [] => [[b]]
      | p :: ps => (b :: p) :: ps := by
  simp [Uuencode.splitNL, h]

/-- Newline splitting distributes over an embedded newline. -/
theorem splitNL_append_ten (v : List Nat) : ∀ u : List Nat,
    Uuencode.splitNL (u ++ 10 :: v) = Uuencode.splitNL u ++ Uuencode.splitNL v := by
  intro u
  induction u with
  | nil => rw [List.nil_append, splitNL_cons_ten]; rfl
  | cons b u ih =>
    by_cases hb : b = 10
    · subst hb
      rw [List.cons_append, splitNL_cons_ten, splitNL_cons_ten, ih]
      rfl
    · rw [List.cons_append, splitNL_cons_ne b _ hb, splitNL_cons_ne b u hb, ih]
      cases h : Uuencode.splitNL u with
      | nil => exact absurd h (splitNL_ne_nil u)
      | cons p ps => rfl

/-- `rustLines` of the empty string is no lines. -/
theorem rustLines_nil : Uuencode.rustLines [] = [] := by decide

/-- `rustLines` of `u ++ v`, when `u` is empty or ends in a newline, is the
lines of `u` (without the empty piece after its final newline) followed by
the lines of `v`. -/
theorem rustLines_append (u v : List Nat) (hu : u = [] ∨ u.getLast? = some 10) :
    Uuencode.rustLines (u ++ v) =
      ((Uuencode.splitNL u).dropLast.map Uuencode.stripCR) ++ Uuencode.rustLines v := by
  rcases hu with hu | hu
  · subst hu
    simp [Uuencode.splitNL]
  · have hw : u.dropLast ++ [10] = u := List.dropLast_append_getLast? 10 hu
    have h1 : u ++ v = u.dropLast ++ 10 :: v := by rw [← hw]; simp
    have h2 : Uuencode.splitNL u = Uuencode.splitNL u.dropLast ++ [[]] := by
      conv_lhs => rw [← hw]
      have h := splitNL_append_ten [] u.dropLast
      simpa [Uuencode.splitNL] using h
    have h3 : (Uuencode.splitNL u).dropLast = Uuencode.splitNL u.dropLast := by
      rw [h2, List.dropLast_concat]
    rw [h1, h3]
    unfold Uuencode.rustLines
    dsimp only
    rw [splitNL_append_ten,
      List.getLast?_append_of_ne_nil _ (splitNL_ne_nil v)]
    by_cases hlast : (Uuencode.splitNL v).getLast? = some []
    · rw [if_pos hlast, if_pos hlast,
        List.dropLast_append_of_ne_nil _ (splitNL_ne_nil v), List.map_append]
    · rw [if_neg hlast, if_neg hlast, List.map_append]

/-- The group-decoding loop never produces the missing-length-character
error (its failures are truncation or invalid character). -/
theorem decodeBody_ne_missing :
    ∀ (chars : List Nat) (n : Nat),
      Uuencode.decodeBody chars n ≠ .error .uuMissingLength
  | _, 0 => by simp [Uuencode.decodeBody]
  | a :: b :: c :: d :: rest, n + 1 => by
    simp only [Uuencode.decodeBody]
    cases ha : Uuencode.dec6 a <;> cases hb : Uuencode.dec6 b <;>
      cases hc : Uuencode.dec6 c <;> cases hd : Uuencode.dec6 d <;>
      simp only []
    all_goals try (intro hx; cases hx)
    have hne := decodeBody_ne_missing rest (n + 1 - min 3 (n + 1))
    cases hres : Uuencode.decodeBody rest (n + 1 - min 3 (n + 1)) with
    | error e =>
      rw [hres] at hne
      simp only [Except.map]
      intro hx
      cases hx
      exact hne rfl
    | ok out => simp [Except.map]
  | [], n + 1 => by simp [Uuencode.decodeBody]
  | [_], n + 1 => by simp [Uuencode.decodeBody]
  | [_, _], n + 1 => by simp [Uuencode.decodeBody]
  | [_, _, _], n + 1 => by simp [Uuencode.decodeBody]

/-- The line loop never produces the missing-length-character error: empty
lines are skipped, so every processed line has a first byte. -/
theorem decodeLines_ne_missing :
    ∀ ls : List (List Nat), Uuencode.decodeLines ls ≠ .error .uuMissingLength
  | [] => by simp [Uuencode.decodeLines]
  | line :: rest => by
    simp only [Uuencode.decodeLines]
    by_cases hline : line = []
    · rw [if_pos hline]
      exact decodeLines_ne_missing rest
    · rw [if_neg hline]
      cases line with
      | nil => exact absurd rfl hline
      | cons lc lcs =>
        simp only [List.head?]
        cases hlen : Uuencode.dec_len lc with
        | none => intro hx; cases hx
        | some m =>
          cases m with
          | zero => intro hx; cases hx
          | succ k =>
            dsimp only
            cases hb : Uuencode.decodeBody (lc :: lcs).tail (k + 1) with
            | error e =>
              dsimp only
              intro hx
              injection hx with he
              rw [he] at hb
              exact decodeBody_ne_missing _ _ hb
            | ok bytes =>
              dsimp only
              cases hr : Uuencode.decodeLines rest with
              | error e =>
                dsimp only
                intro hx
                injection hx with he
                rw [he] at hr
                exact decodeLines_ne_missing rest hr
              | ok out =>
                dsimp only
                intro hx
                cases hx

/-- Lines after a terminator line (single backtick) are ignored by the line
loop. -/
theorem decodeLines_terminator :
    ∀ (L : List (List Nat)) (X : List (List Nat)),
      Uuencode.decodeLines (L ++ [96] :: X) = Uuencode.decodeLines (L ++ [[96]])
  | [], X => rfl
  | l :: L, X => by
    simp only [List.cons_append, Uuencode.decodeLines]
    by_cases hl : l = []
    · rw [if_pos hl, if_pos hl]
      exact decodeLines_terminator L X
    · rw [if_neg hl, if_neg hl]
      cases hh : l.head? with
      | none => rfl
      | some lc =>
        dsimp only
        cases hlen : Uuencode.dec_len lc with
        | none => rfl
        | some m =>
          cases m with
          | zero => rfl
          | succ k =>
            dsimp only
            cases hb : Uuencode.decodeBody l.tail (k + 1) with
            | error e => rfl
            | ok bytes =>
              dsimp only
              simp only [List.append_eq]
              rw [decodeLines_terminator L X]

/-- C10: the missing-length-character error of `from_uuencode` is
unreachable for every input (empty lines are skipped, so each processed line
has a first byte), and once a terminator line is reached — here a backtick
line following a prefix `p` that is empty or newline-terminated — all
subsequent text is ignored. -/
theorem c10_uuencode_framing :
    (∀ s : List Nat, Uuencode.from_uuencode s ≠ .error .uuMissingLength) ∧
    (∀ p t : List Nat, p = [] ∨ p.getLast? = some 10 →
      Uuencode.from_uuencode (p ++ 96 :: 10 :: t) =
        Uuencode.from_uuencode (p ++ [96, 10])) := by
  constructor
  · intro s
    exact decodeLines_ne_missing (Uuencode.rustLines s)
  · intro p t hp
    unfold Uuencode.from_uuencode
    have hsplit : Uuencode.splitNL (p ++ [96]) =
        (Uuencode.splitNL (p ++ [96])).dropLast ++ [[96]] := by
      rcases hp with hp | hp
      · subst hp; rfl
      · have hw : p.dropLast ++ [10] = p := List.dropLast_append_getLast? 10 hp
        have hx : p ++ [96] = p.dropLast ++ 10 :: [96] := by rw [← hw]; simp
        rw [hx, splitNL_append_ten,
          show Uuencode.splitNL [96] = [[96]] from rfl, List.dropLast_concat]
    have h10 : Uuencode.splitNL ((p ++ [96]) ++ [10]) =
        Uuencode.splitNL (p ++ [96]) ++ [[]] := by
      rw [splitNL_append_ten]
      rfl
    have hlines1 : Uuencode.rustLines (p ++ 96 :: 10 :: t) =
        ((Uuencode.splitNL (p ++ [96])).map Uuencode.stripCR) ++ Uuencode.rustLines t := by
      have h := rustLines_append ((p ++ [96]) ++ [10]) t
        (Or.inr (List.getLast?_concat _))
      rw [show (((p ++ [96]) ++ [10]) ++ t) = (p ++ 96 :: 10 :: t) by simp] at h
      rw [h, h10, List.dropLast_concat]
    have hlines2 : Uuencode.rustLines (p ++ [96, 10]) =
        (Uuencode.splitNL (p ++ [96])).map Uuencode.stripCR := by
      have h := rustLines_append ((p ++ [96]) ++ [10]) []
        (Or.inr (List.getLast?_concat _))
      rw [List.append_nil] at h
      rw [show (p ++ [96, 10] : List Nat) = (p ++ [96]) ++ [10] by simp, h, h10,
        List.dropLast_concat, rustLines_nil, List.append_nil]
    rw [hlines1, hlines2]
    have hA : List.map Uuencode.stripCR (Uuencode.splitNL (p ++ [96])) =
        (List.map Uuencode.stripCR (Uuencode.splitNL (p ++ [96])).dropLast) ++ [[96]] := by
      conv_lhs => rw [hsplit]
      rw [List.map_append]
      rfl
    rw [hA, List.append_assoc, List.singleton_append]
    exact decodeLines_terminator _ _

/-- C10 witness: junk after the terminator is ignored on a concrete input. -/
theorem c10_uuencode_framing_witness :
    Uuencode.from_uuencode ([35, 48, 48, 48, 48, 10] ++ 96 :: 10 :: [126, 126]) =
      Uuencode.from_uuencode ([35, 48, 48, 48, 48, 10] ++ [96, 10]) :=
  c10_uuencode_framing.2 [35, 48, 48, 48, 48, 10] [126, 126] (Or.inr (by decide))

/-- Per-digit facts about the 16 hex alphabet bytes: each is ASCII, not
whitespace, UTF-8-encodes to itself, and `from_hex_digit` inverts it. -/
theorem hexDigit_fin_facts : ∀ v : Fin 16,
    Hex.alphabet.getD v.val 48 < 128 ∧
    isRustWhitespace (Char.ofNat (Hex.alphabet.getD v.val 48)) = false ∧
    utf8EncodeChar (Char.ofNat (Hex.alphabet.getD v.val 48)) =
      [Hex.alphabet.getD v.val 48] ∧
    Hex.from_hex_digit (Hex.alphabet.getD v.val 48) = some v.val := by decide

/-- Nat-level restatement of `hexDigit_fin_facts`. -/
theorem hexDigitProps (v : Nat) (hv : v < 16) :
    Hex.alphabet.getD v 48 < 128 ∧
    isRustWhitespace (Char.ofNat (Hex.alphabet.getD v 48)) = false ∧
    utf8EncodeChar (Char.ofNat (Hex.alphabet.getD v 48)) = [Hex.alphabet.getD v 48] ∧
    Hex.from_hex_digit (Hex.alphabet.getD v 48) = some v :=
  hexDigit_fin_facts ⟨v, hv⟩

/-- The high nibble of a byte is below 16. -/
theorem shr4_lt_16 (x : Nat) (hx : x < 256) : x >>> 4 < 16 := by
  have : ∀ p : Fin 256, p.val >>> 4 < 16 := by decide
  exact this ⟨x, hx⟩

/-- The low nibble of a byte is below 16. -/
theorem and15_lt_16 (x : Nat) : x &&& 15 < 16 := by
  have h := Nat.and_le_right (n := x) (m := 15)
  omega

/-- Reassembling the two nibbles of a byte gives the byte back. -/
theorem nibble_recomb (x : Nat) (hx : x < 256) :
    ((x >>> 4) <<< 4) ||| (x &&& 15) = x := by
  have : ∀ p : Fin 256, ((p.val >>> 4) <<< 4) ||| (p.val &&& 15) = p.val := by decide
  exact this ⟨x, hx⟩

/-- Characters produced by `to_hex` are never whitespace. -/
theorem to_hex_not_ws :
    ∀ b : List Nat, (∀ x ∈ b, x < 256) →
      ∀ c ∈ Hex.to_hex b, isRustWhitespace c = false := by
  intro b
  induction b with
  | nil => intro _ c hc; cases hc
  | cons x xs ih =>
    intro hb c hc
    have hx : x < 256 := hb x (by simp)
    simp only [Hex.to_hex, concatMap] at hc
    rcases List.mem_append.mp hc with hc | hc
    · rcases List.mem_cons.mp hc with hc | hc
      · subst hc
        exact (hexDigitProps _ (shr4_lt_16 x hx)).2.1
      · rcases List.mem_cons.mp hc with hc | hc
        · subst hc
          exact (hexDigitProps _ (and15_lt_16 x)).2.1
        · cases hc
    · exact ih (fun y hy => hb y (by simp [hy])) c hc

/-- The UTF-8 bytes of `to_hex b` are exactly the alphabet bytes of the two
nibbles of each byte of `b`. -/
theorem utf8Bytes_to_hex :
    ∀ b : List Nat, (∀ x ∈ b, x < 256) →
      utf8Bytes (Hex.to_hex b) =
        concatMap (fun x => [Hex.alphabet.getD (x >>> 4) 48,
                             Hex.alphabet.getD (x &&& 15) 48]) b := by
  intro b
  induction b with
  | nil => intro _; rfl
  | cons x xs ih =>
    intro hb
    have hx : x < 256 := hb x (by simp)
    have h1 := (hexDigitProps _ (shr4_lt_16 x hx)).2.2.1
    have h2 := (hexDigitProps _ (and15_lt_16 x)).2.2.1
    have hih := ih (fun y hy => hb y (by simp [hy]))
    simp only [Hex.to_hex, utf8Bytes, concatMap, List.cons_append,
      List.append_eq, List.nil_append] at hih ⊢
    rw [h1, h2, hih]
    rfl

/-- The hex pair loop inverts nibble splitting. -/
theorem pairsLoop_concatMap :
    ∀ b : List Nat, (∀ x ∈ b, x < 256) →
      Hex.pairsLoop
        (concatMap (fun x => [Hex.alphabet.getD (x >>> 4) 48,
                              Hex.alphabet.getD (x &&& 15) 48]) b) = .ok b := by
  intro b
  induction b with
  | nil => intro _; rfl
  | cons x xs ih =>
    intro hb
    have hx : x < 256 := hb x (by simp)
    have h1 := (hexDigitProps _ (shr4_lt_16 x hx)).2.2.2
    have h2 := (hexDigitProps _ (and15_lt_16 x)).2.2.2
    simp only [concatMap, List.cons_append, List.append_eq, List.nil_append,
      Hex.pairsLoop]
    rw [h1, h2]
    dsimp only
    rw [ih (fun y hy => hb y (by simp [hy]))]
    simp only [Except.map]
    rw [nibble_recomb x hx]

/-- Any fuel at least the list length gives `chunksOfAux` its fixpoint
value. -/
theorem chunksOfAux_irrel (k : Nat) (hk : 0 < k) :
    ∀ (bound g : Nat) (l : List α), l.length ≤ g → g ≤ bound →
      Uuencode.chunksOfAux k g l = Uuencode.chunksOfAux k l.length l := by
  intro bound
  induction bound with
  | zero =>
    intro g l hl hg
    have hg0 : g = 0 := by omega
    subst hg0
    have : l = [] := List.eq_nil_of_length_eq_zero (by omega)
    subst this
    rfl
  | succ f ih =>
    intro g l hl hg
    cases g with
    | zero =>
      have : l = [] := List.eq_nil_of_length_eq_zero (by omega)
      subst this
      rfl
    | succ g' =>
      cases l with
      | nil => rfl
      | cons x xs =>
        simp only [List.length_cons] at hl
        simp only [List.length_cons, Uuencode.chunksOfAux]
        congr 1
        have hdl : (List.drop k (x :: xs)).length ≤ xs.length := by
          simp only [List.length_drop, List.length_cons]
          omega
        rw [ih g' _ (by omega) (by omega),
          ih xs.length _ (by omega) (by omega)]

/-- Unfolding `chunksOf` on a non-empty list: one chunk of (up to) `k`
elements, then the chunks of the rest. -/
theorem chunksOf_cons (k : Nat) (hk : 0 < k) (l : List α) (hl : l ≠ []) :
    Uuencode.chunksOf k l = l.take k :: Uuencode.chunksOf k (l.drop k) := by
  cases l with
  | nil => exact absurd rfl hl
  | cons x xs =>
    show Uuencode.chunksOfAux k (x :: xs).length (x :: xs) = _
    simp only [List.length_cons, Uuencode.chunksOfAux]
    congr 1
    exact chunksOfAux_irrel k hk xs.length xs.length _
      (by simp only [List.length_drop, List.length_cons]; omega) (le_refl _)

/-- The chunks of a list concatenate back to the list. -/
theorem chunksOf_join (k : Nat) (hk : 0 < k) :
    ∀ l : List α, concatMap (fun c => c) (Uuencode.chunksOf k l) = l := by
  intro l
  generalize hn : l.length = n
  induction n using Nat.strong_induction_on generalizing l with
  | _ n ih =>
    cases l with
    | nil => rfl
    | cons x xs =>
      subst hn
      rw [chunksOf_cons k hk _ (by simp), concatMap]
      rw [ih (List.drop k (x :: xs)).length
        (by simp only [List.length_drop, List.length_cons]; omega) _ rfl]
      exact List.take_append_drop k (x :: xs)

/-- Each chunk is non-empty, at most `k` long, and drawn from the list. -/
theorem chunksOf_facts (k : Nat) (hk : 0 < k) :
    ∀ l : List α, ∀ c ∈ Uuencode.chunksOf k l,
      c ≠ [] ∧ c.length ≤ k ∧ (∀ x ∈ c, x ∈ l) := by
  intro l
  generalize hn : l.length = n
  induction n using Nat.strong_induction_on generalizing l with
  | _ n ih =>
    cases l with
    | nil => intro c hc; cases hc
    | cons x xs =>
      subst hn
      intro c hc
      rw [chunksOf_cons k hk _ (by simp)] at hc
      rcases List.mem_cons.mp hc with hc | hc
      · subst hc
        refine ⟨?_, ?_, ?_⟩
        · cases k with
          | zero => omega
          | succ k' => simp [List.take]
        · simp only [List.length_take]
          omega
        · intro y hy
          exact List.take_subset _ _ hy
      · have h := ih (List.drop k (x :: xs)).length
          (by simp only [List.length_drop, List.length_cons]; omega) _ rfl c hc
        exact ⟨h.1, h.2.1, fun y hy => List.drop_subset _ _ (h.2.2 y hy)⟩

/-- A short non-empty list is a single chunk. -/
theorem chunksOf_single (k : Nat) (hk : 0 < k) (l : List α) (hl : l ≠ [])
    (hlen : l.length ≤ k) : Uuencode.chunksOf k l = [l] := by
  rw [chunksOf_cons k hk l hl, List.take_of_length_le hlen,
    List.drop_eq_nil_of_le hlen]
  rfl

/-- Bit-operation facts on bytes, established by enumeration. -/
theorem byte_shr2_and63 (x : Nat) (hx : x < 256) : (x >>> 2) &&& 63 = x / 4 := by
  have h : ∀ p : Fin 256, (p.val >>> 2) &&& 63 = p.val / 4 := by decide
  exact h ⟨x, hx⟩

theorem byte_shl4_and255 (x : Nat) (hx : x < 256) : (x <<< 4) &&& 255 = x % 16 * 16 := by
  have h : ∀ p : Fin 256, (p.val <<< 4) &&& 255 = p.val % 16 * 16 := by decide
  exact h ⟨x, hx⟩

theorem byte_shr4 (x : Nat) (hx : x < 256) : x >>> 4 = x / 16 := by
  have h : ∀ p : Fin 256, p.val >>> 4 = p.val / 16 := by decide
  exact h ⟨x, hx⟩

theorem byte_shr2 (x : Nat) (hx : x < 256) : x >>> 2 = x / 4 := by
  have h : ∀ p : Fin 256, p.val >>> 2 = p.val / 4 := by decide
  exact h ⟨x, hx⟩

theorem byte_and63 (x : Nat) (hx : x < 256) : x &&& 63 = x % 64 := by
  have h : ∀ p : Fin 256, p.val &&& 63 = p.val % 64 := by decide
  exact h ⟨x, hx⟩

theorem byte_shl2_and255 (x : Nat) (hx : x < 256) : (x <<< 2) &&& 255 = x % 64 * 4 := by
  have h : ∀ p : Fin 256, (p.val <<< 2) &&& 255 = p.val % 64 * 4 := by decide
  exact h ⟨x, hx⟩

theorem byte_shr6 (x : Nat) (hx : x < 256) : x >>> 6 = x / 64 := by
  have h : ∀ p : Fin 256, p.val >>> 6 = p.val / 64 := by decide
  exact h ⟨x, hx⟩

theorem byte_shl6_and255 (x : Nat) (hx : x < 256) : (x <<< 6) &&& 255 = x % 4 * 64 := by
  have h : ∀ p : Fin 256, (p.val <<< 6) &&& 255 = p.val % 4 * 64 := by decide
  exact h ⟨x, hx⟩

theorem or_mul16 (a b : Nat) (ha : a < 16) (hb : b < 16) : (a * 16) ||| b = a * 16 + b := by
  have h : ∀ p : Fin 16, ∀ q : Fin 16, (p.val * 16) ||| q.val = p.val * 16 + q.val := by
    decide
  exact h ⟨a, ha⟩ ⟨b, hb⟩

theorem or_mul4 (a b : Nat) (ha : a < 64) (hb : b < 4) : (a * 4) ||| b = a * 4 + b := by
  have h : ∀ p : Fin 64, ∀ q : Fin 4, (p.val * 4) ||| q.val = p.val * 4 + q.val := by
    decide
  exact h ⟨a, ha⟩ ⟨b, hb⟩

theorem or_mul64 (a b : Nat) (ha : a < 4) (hb : b < 64) : (a * 64) ||| b = a * 64 + b := by
  have h : ∀ p : Fin 4, ∀ q : Fin 64, (p.val * 64) ||| q.val = p.val * 64 + q.val := by
    decide
  exact h ⟨a, ha⟩ ⟨b, hb⟩

/-- Arithmetic forms of the four 6-bit groups `encGroup` computes from a
(zero-padded) byte triple. -/
theorem encGroup_vals (b0 b1 b2 : Nat) (h0 : b0 < 256) (h1 : b1 < 256) (h2 : b2 < 256) :
    (b0 >>> 2) &&& 63 = b0 / 4 ∧
    (((b0 <<< 4) &&& 255) ||| (b1 >>> 4)) &&& 63 = b0 % 4 * 16 + b1 / 16 ∧
    (((b1 <<< 2) &&& 255) ||| (b2 >>> 6)) &&& 63 = b1 % 16 * 4 + b2 / 64 ∧
    b2 &&& 63 = b2 % 64 := by
  refine ⟨byte_shr2_and63 b0 h0, ?_, ?_, byte_and63 b2 h2⟩
  · rw [byte_shl4_and255 b0 h0, byte_shr4 b1 h1,
      or_mul16 _ _ (by omega) (by omega),
      byte_and63 _ (by omega)]
    omega
  · rw [byte_shl2_and255 b1 h1, byte_shr6 b2 h2,
      or_mul4 _ _ (by omega) (by omega),
      byte_and63 _ (by omega)]
    omega

/-- The three decoded output bytes of a 6-bit group reproduce the original
byte triple. -/
theorem decGroup_recomb (b0 b1 b2 : Nat) (h0 : b0 < 256) (h1 : b1 < 256) (h2 : b2 < 256) :
    ((((b0 >>> 2) &&& 63) <<< 2) &&& 255) |||
        (((((b0 <<< 4) &&& 255) ||| (b1 >>> 4)) &&& 63) >>> 4) = b0 ∧
    ((((((b0 <<< 4) &&& 255) ||| (b1 >>> 4)) &&& 63) <<< 4) &&& 255) |||
        (((((b1 <<< 2) &&& 255) ||| (b2 >>> 6)) &&& 63) >>> 2) = b1 ∧
    ((((((b1 <<< 2) &&& 255) ||| (b2 >>> 6)) &&& 63) <<< 6) &&& 255) |||
        (b2 &&& 63) = b2 := by
  obtain ⟨e0, e1, e2, e3⟩ := encGroup_vals b0 b1 b2 h0 h1 h2
  rw [e0, e1, e2, e3]
  refine ⟨?_, ?_, ?_⟩
  · rw [byte_shl2_and255 _ (by omega), byte_shr4 _ (by omega)]
    rw [show b0 / 4 % 64 = b0 / 4 by omega,
      show (b0 % 4 * 16 + b1 / 16) / 16 = b0 % 4 by omega]
    rw [or_mul4 _ _ (by omega) (by omega)]
    omega
  · rw [byte_shl4_and255 _ (by omega), byte_shr2 _ (by omega)]
    rw [show (b0 % 4 * 16 + b1 / 16) % 16 = b1 / 16 by omega,
      show (b1 % 16 * 4 + b2 / 64) / 4 = b1 % 16 by omega]
    rw [or_mul16 _ _ (by omega) (by omega)]
    omega
  · rw [byte_shl6_and255 _ (by omega)]
    rw [show (b1 % 16 * 4 + b2 / 64) % 4 = b2 / 64 by omega]
    rw [or_mul64 _ _ (by omega) (by omega)]
    omega

/-- `dec6` inverts `enc6` on 6-bit values. -/
theorem dec6_enc6 (v : Nat) (hv : v < 64) :
    Uuencode.dec6 (Uuencode.enc6 v) = some v := by
  have h : ∀ p : Fin 64, Uuencode.dec6 (Uuencode.enc6 p.val) = some p.val := by decide
  exact h ⟨v, hv⟩

/-- Masking with 63 keeps a value below 64. -/
theorem and63_lt (x : Nat) : x &&& 63 < 64 := by
  have h := Nat.and_le_right (n := x) (m := 63)
  omega

/-- Decoding one encoded 3-byte group: the group's four characters are
consumed, the (up to `n + 1`) bytes they carry are emitted, and decoding
continues on the rest. -/
theorem decodeBody_group (b0 b1 b2 : Nat) (h0 : b0 < 256) (h1 : b1 < 256)
    (h2 : b2 < 256) (rest : List Nat) (n : Nat) :
    Uuencode.decodeBody (Uuencode.encGroup [b0, b1, b2] ++ rest) (n + 1) =
      (Uuencode.decodeBody rest (n + 1 - min 3 (n + 1))).map
        (fun tail => List.take (n + 1) [b0, b1, b2] ++ tail) := by
  obtain ⟨r0, r1, r2⟩ := decGroup_recomb b0 b1 b2 h0 h1 h2
  simp only [Uuencode.encGroup, List.getD, List.get?_cons_zero,
    List.get?_cons_succ, Option.getD_some, List.cons_append, List.append_eq,
    List.nil_append, Uuencode.decodeBody]
  rw [dec6_enc6 _ (and63_lt _), dec6_enc6 _ (and63_lt _),
    dec6_enc6 _ (and63_lt _), dec6_enc6 _ (and63_lt _)]
  dsimp only
  simp only [r0, r1, r2]

/-- Decoding the encoded 3-byte groups of a chunk returns the chunk. -/
theorem decodeBody_encGroups :
    ∀ chunk : List Nat, (∀ x ∈ chunk, x < 256) →
      Uuencode.decodeBody (concatMap Uuencode.encGroup (Uuencode.chunksOf 3 chunk))
        chunk.length = .ok chunk
  | [], _ => rfl
  | [b0], h => by
    rw [chunksOf_single 3 (by omega) _ (by simp) (by simp)]
    rw [concatMap, concatMap, List.append_nil]
    rw [show Uuencode.encGroup [b0] = Uuencode.encGroup [b0, 0, 0] from rfl]
    rw [← List.append_nil (Uuencode.encGroup [b0, 0, 0])]
    rw [show ([b0] : List Nat).length = 0 + 1 from rfl]
    rw [decodeBody_group b0 0 0 (h b0 (by simp)) (by omega) (by omega) [] 0]
    rfl
  | [b0, b1], h => by
    rw [chunksOf_single 3 (by omega) _ (by simp) (by simp)]
    rw [concatMap, concatMap, List.append_nil]
    rw [show Uuencode.encGroup [b0, b1] = Uuencode.encGroup [b0, b1, 0] from rfl]
    rw [← List.append_nil (Uuencode.encGroup [b0, b1, 0])]
    rw [show ([b0, b1] : List Nat).length = 1 + 1 from rfl]
    rw [decodeBody_group b0 b1 0 (h b0 (by simp)) (h b1 (by simp)) (by omega) [] 1]
    rfl
  | b0 :: b1 :: b2 :: rest, h => by
    rw [chunksOf_cons 3 (by omega) _ (by simp)]
    rw [show List.take 3 (b0 :: b1 :: b2 :: rest) = [b0, b1, b2] from rfl,
      show List.drop 3 (b0 :: b1 :: b2 :: rest) = rest from rfl]
    rw [concatMap]
    rw [show (b0 :: b1 :: b2 :: rest).length = (rest.length + 2) + 1 from by
      simp only [List.length_cons]]
    rw [decodeBody_group b0 b1 b2 (h b0 (by simp)) (h b1 (by simp))
      (h b2 (by simp)) _ (rest.length + 2)]
    rw [show (rest.length + 2) + 1 - min 3 ((rest.length + 2) + 1) = rest.length from by
      omega]
    rw [decodeBody_encGroups rest (fun y hy => h y (by simp [hy]))]
    simp only [Except.map]
    rw [List.take_of_length_le (by simp only [List.length_cons, List.length_nil]; omega)]
    rfl

/-- `enc6` always produces a byte in the printable range 33..96. -/
theorem enc6_range (v : Nat) : 33 ≤ Uuencode.enc6 v ∧ Uuencode.enc6 v ≤ 96 := by
  have h := and63_lt v
  simp only [Uuencode.enc6]
  split
  · omega
  · omega

/-- `enc_len` always produces a byte in the printable range 33..96. -/
theorem enc_len_range (n : Nat) : 33 ≤ Uuencode.enc_len n ∧ Uuencode.enc_len n ≤ 96 := by
  unfold Uuencode.enc_len
  split
  · exact enc6_range 0
  · exact enc6_range n

/-- Every data character of an encoded group is in the range 33..96. -/
theorem encGroup_range (t : List Nat) : ∀ y ∈ Uuencode.encGroup t, 33 ≤ y ∧ y ≤ 96 := by
  intro y hy
  simp only [Uuencode.encGroup] at hy
  rcases List.mem_cons.mp hy with hy | hy
  · subst hy; exact enc6_range _
  · rcases List.mem_cons.mp hy with hy | hy
    · subst hy; exact enc6_range _
    · rcases List.mem_cons.mp hy with hy | hy
      · subst hy; exact enc6_range _
      · rcases List.mem_cons.mp hy with hy | hy
        · subst hy; exact enc6_range _
        · cases hy

/-- Every character of the encoded groups of a chunk list is in 33..96. -/
theorem concatMap_encGroup_range :
    ∀ X : List (List Nat), ∀ y ∈ concatMap Uuencode.encGroup X, 33 ≤ y ∧ y ≤ 96 := by
  intro X
  induction X with
  | nil => intro y hy; cases hy
  | cons t X ih =>
    intro y hy
    rcases List.mem_append.mp hy with hy | hy
    · exact encGroup_range t y hy
    · exact ih y hy

/-- A line without a newline byte is a single piece. -/
theorem splitNL_no_nl : ∀ l : List Nat, 10 ∉ l → Uuencode.splitNL l = [l] := by
  intro l
  induction l with
  | nil => intro _; rfl
  | cons b bs ih =>
    intro h
    have hb : b ≠ 10 := fun hx => h (hx ▸ List.mem_cons_self b bs)
    rw [splitNL_cons_ne b bs hb, ih (fun hx => h (List.mem_cons_of_mem b hx))]

/-- A line without a carriage return is unchanged by `stripCR`. -/
theorem stripCR_no13 (l : List Nat) (h13 : 13 ∉ l) : Uuencode.stripCR l = l := by
  unfold Uuencode.stripCR
  by_cases h : l.getLast? = some 13
  · exact absurd (List.mem_of_mem_getLast? h) h13
  · rw [if_neg h]

/-- `rustLines` of the uuencode output: one line per chunk (length prefix and
group characters, newline removed) followed by the backtick terminator
line. -/
theorem rustLines_encLines :
    ∀ L : List (List Nat),
      Uuencode.rustLines (concatMap Uuencode.encLine L ++ [96, 10]) =
        L.map (fun c => Uuencode.enc_len c.length ::
          concatMap Uuencode.encGroup (Uuencode.chunksOf 3 c)) ++ [[96]] := by
  intro L
  induction L with
  | nil => decide
  | cons c L ih =>
    have hbody : ∀ y ∈ (Uuencode.enc_len c.length ::
        concatMap Uuencode.encGroup (Uuencode.chunksOf 3 c)), 33 ≤ y ∧ y ≤ 96 := by
      intro y hy
      rcases List.mem_cons.mp hy with hy | hy
      · subst hy; exact enc_len_range _
      · exact concatMap_encGroup_range _ y hy
    have h10 : 10 ∉ (Uuencode.enc_len c.length ::
        concatMap Uuencode.encGroup (Uuencode.chunksOf 3 c)) := by
      intro hx
      have := hbody 10 hx
      omega
    have h13 : 13 ∉ (Uuencode.enc_len c.length ::
        concatMap Uuencode.encGroup (Uuencode.chunksOf 3 c)) := by
      intro hx
      have := hbody 13 hx
      omega
    rw [concatMap, List.append_assoc]
    rw [show Uuencode.encLine c = (Uuencode.enc_len c.length ::
      concatMap Uuencode.encGroup (Uuencode.chunksOf 3 c)) ++ [10] from rfl]
    rw [rustLines_append _ _ (Or.inr (List.getLast?_concat _))]
    rw [splitNL_append_ten, splitNL_no_nl _ h10,
      show Uuencode.splitNL ([] : List Nat) = [[]] from rfl,
      List.dropLast_concat]
    simp only [List.map_cons, List.map_nil]
    rw [stripCR_no13 _ h13, ih]
    simp

/-- `dec_len` inverts `enc_len` on chunk sizes below 64. -/
theorem declen_enclen (n : Nat) (h : n < 64) :
    Uuencode.dec_len (Uuencode.enc_len n) = some n := by
  have hh : ∀ p : Fin 64, Uuencode.dec_len (Uuencode.enc_len p.val) = some p.val := by
    decide
  exact hh ⟨n, h⟩

/-- Decoding the encoded lines of a chunk list (with terminator) returns the
concatenation of the chunks. -/
theorem decodeLines_encoded :
    ∀ L : List (List Nat),
      (∀ c ∈ L, c ≠ [] ∧ c.length < 64 ∧ (∀ x ∈ c, x < 256)) →
      Uuencode.decodeLines (L.map (fun c => Uuencode.enc_len c.length ::
          concatMap Uuencode.encGroup (Uuencode.chunksOf 3 c)) ++ [[96]]) =
        .ok (concatMap (fun c => c) L) := by
  intro L
  induction L with
  | nil => intro _; rfl
  | cons c L ih =>
    intro h
    obtain ⟨hne, hlen, hmem⟩ := h c (List.mem_cons_self c L)
    simp only [List.map_cons, List.cons_append, Uuencode.decodeLines]
    rw [if_neg (by simp)]
    simp only [List.head?]
    rw [declen_enclen _ hlen]
    obtain ⟨k, hk⟩ : ∃ k, c.length = k + 1 := by
      cases hc : c.length with
      | zero => exact absurd (List.eq_nil_of_length_eq_zero hc) hne
      | succ k => exact ⟨k, rfl⟩
    rw [hk]
    dsimp only [List.tail_cons]
    rw [← hk, decodeBody_encGroups c hmem]
    dsimp only
    simp only [List.append_eq]
    rw [ih (fun x hx => h x (List.mem_cons_of_mem c hx))]
    rfl

/-- Uuencode round-trip: decoding the encoding returns the original bytes. -/
theorem uu_roundtrip_core (b : List Nat) (hb : ∀ x ∈ b, x < 256) :
    Uuencode.from_uuencode (Uuencode.to_uuencode b) = .ok b := by
  unfold Uuencode.from_uuencode Uuencode.to_uuencode
  rw [rustLines_encLines]
  rw [decodeLines_encoded _ (fun c hc => by
    obtain ⟨h1, h2, h3⟩ := chunksOf_facts 45 (by omega) b c hc
    exact ⟨h1, by omega, fun x hx => hb x (h3 x hx)⟩)]
  rw [chunksOf_join 45 (by omega) b]

/-- The nibble expansion has twice the length of the byte list. -/
theorem concatMap_pair_length (f g : Nat → Nat) :
    ∀ b : List Nat, (concatMap (fun x => [f x, g x]) b).length = 2 * b.length := by
  intro b
  induction b with
  | nil => rfl
  | cons x xs ih =>
    simp only [concatMap, List.length_append, List.length_cons, List.length_nil, ih]
    omega

/-- Hex round-trip: decoding the encoding returns the original bytes. -/
theorem hex_roundtrip_core (b : List Nat) (hb : ∀ x ∈ b, x < 256) :
    Hex.from_hex (Hex.to_hex b) = .ok b := by
  unfold Hex.from_hex
  rw [rustTrim_eq_self _ (to_hex_not_ws b hb)]
  cases b with
  | nil => rfl
  | cons x xs =>
    rw [if_neg (by simp [Hex.to_hex, concatMap])]
    rw [utf8Bytes_to_hex _ hb]
    rw [if_neg (by rw [concatMap_pair_length]; omega)]
    exact pairsLoop_concatMap _ hb

/-- C2: for every byte buffer `b`, Hex decode of the Hex encoding of `b`
returns `b` exactly (no stripping or padding of leading zero bytes), and
Uuencode decode of the Uuencode encoding of `b` returns `Ok b` exactly. -/
theorem c2_hex_uuencode_roundtrip :
    ∀ b : List Nat, (∀ x ∈ b, x < 256) →
      Hex.from_hex (Hex.to_hex b) = .ok b ∧
      Uuencode.from_uuencode (Uuencode.to_uuencode b) = .ok b := by
  intro b hb
  exact ⟨hex_roundtrip_core b hb, uu_roundtrip_core b hb⟩

/-- C2 witness: the round-trips at a concrete buffer with leading zeros. -/
theorem c2_hex_uuencode_roundtrip_witness :
    Hex.from_hex (Hex.to_hex [0, 0, 255, 7, 16]) = .ok [0, 0, 255, 7, 16] ∧
    Uuencode.from_uuencode (Uuencode.to_uuencode [0, 0, 255, 7, 16]) =
      .ok [0, 0, 255, 7, 16] :=
  c2_hex_uuencode_roundtrip [0, 0, 255, 7, 16] (by decide)

/-- Each encoded group contributes exactly four characters. -/
theorem concatMap_encGroup_length :
    ∀ X : List (List Nat), (concatMap Uuencode.encGroup X).length = 4 * X.length := by
  intro X
  induction X with
  | nil => rfl
  | cons t X ih =>
    simp only [concatMap, List.length_append, List.length_cons, ih,
      Uuencode.encGroup, List.length_nil]
    omega

/-- The number of 3-chunks is the byte count rounded up to a multiple of
three. -/
theorem chunksOf3_length :
    ∀ l : List Nat, (Uuencode.chunksOf 3 l).length = (l.length + 2) / 3 := by
  intro l
  generalize hn : l.length = n
  induction n using Nat.strong_induction_on generalizing l with
  | _ n ih =>
    cases l with
    | nil =>
      subst hn
      rfl
    | cons x xs =>
      subst hn
      rw [chunksOf_cons 3 (by omega) _ (by simp), List.length_cons]
      rw [ih (List.drop 3 (x :: xs)).length
        (by simp only [List.length_drop, List.length_cons]; omega) _ rfl]
      simp only [List.length_drop, List.length_cons]
      omega

/-- C7: a 37-byte input encodes to exactly one data line — the length-prefix
character for 37, then four characters per 3-byte group (13 groups, 52
characters, none of them a newline), then a newline — followed by the
backtick terminator line; and decoding that output returns the original 37
bytes. -/
theorem c7_uuencode_37_bytes :
    ∀ b : List Nat, b.length = 37 → (∀ x ∈ b, x < 256) →
      ∃ body : List Nat,
        Uuencode.to_uuencode b = Uuencode.enc_len 37 :: body ++ [10, 96, 10] ∧
        body.length = 4 * 13 ∧
        (∀ y ∈ body, y ≠ 10) ∧
        Uuencode.from_uuencode (Uuencode.to_uuencode b) = .ok b := by
  intro b hlen hb
  refine ⟨concatMap Uuencode.encGroup (Uuencode.chunksOf 3 b), ?_, ?_, ?_,
    uu_roundtrip_core b hb⟩
  · unfold Uuencode.to_uuencode
    rw [chunksOf_single 45 (by omega) b
      (by intro h; rw [h] at hlen; cases hlen) (by omega)]
    rw [concatMap, concatMap, List.append_nil]
    rw [show Uuencode.encLine b = (Uuencode.enc_len b.length ::
      concatMap Uuencode.encGroup (Uuencode.chunksOf 3 b)) ++ [10] from rfl]
    rw [hlen]
    simp
  · rw [concatMap_encGroup_length, chunksOf3_length, hlen]
  · intro y hy
    have := concatMap_encGroup_range _ y hy
    omega

/-- C7 witness: the framing at the concrete 37-byte buffer `0, 1, ..., 36`. -/
theorem c7_uuencode_37_bytes_witness :
    ∃ body : List Nat,
      Uuencode.to_uuencode (List.range 37) =
        Uuencode.enc_len 37 :: body ++ [10, 96, 10] ∧
      body.length = 4 * 13 ∧
      (∀ y ∈ body, y ≠ 10) ∧
      Uuencode.from_uuencode (Uuencode.to_uuencode (List.range 37)) =
        .ok (List.range 37) :=
  c7_uuencode_37_bytes (List.range 37) (by decide) (by decide)
